import Mathlib

/-!
# Order book manager (`orderbook.h`)

A shallow embedding of `ob::Book` and `ob::OrderBookMgr`.

Modelling choices.
* `double` prices are only ever compared (`<`, `>`, `==`), never computed with, so the
  price of a level is a rational number `ℚ`: `Book::add` rejects NaN, as `NaN > 0` is
  false, so NaN never enters a book. The guard of `add` itself is also given on `Double`,
  which has NaN (`Book.add_double`).
* `int` quantities, counts, order ids and book ids are unbounded integers `Int`. The
  arithmetic of `remove` is also given on 32-bit integers (`Book.remove_i32`), where
  `wrap32` is the two's-complement result of an operation that leaves the `int` range.
* `std::vector<Level>` is a `List`; an iterator is an index, `end()` is the length.
* `std::lower_bound` is the usual halving loop of the standard library.
* `std::unordered_map` is an association list; `find` returns the first entry with the
  key, `emplace` adds an entry when the key is absent.
* `std::hash<std::string>` followed by the conversion to `int` is a parameter `hash`.
* Console output is dropped.
-/

namespace ob

/-- The `Order` record. -/
structure Order where
  id : Int
  side : Char
  price : ℚ
  quantity : Int
  symbol : String
deriving DecidableEq

/-- The `Book::Level` record: aggregate quantity and number of orders at one price. -/
structure Book.Level where
  price : ℚ
  quantity : Int
  count : Int
deriving DecidableEq

/-- The `Book` record: both sides of one symbol. -/
structure Book where
  id : Int
  bids : List Book.Level
  offers : List Book.Level
deriving DecidableEq

/-- The constructor `Book(int _id)`: both sides empty. -/
def Book.new (id : Int) : Book := ⟨id, [], []⟩

/-- The comparator `Book::lt<isBid>`. -/
def Book.lt (isBid : Bool) (l : Book.Level) (p : ℚ) : Bool :=
  if isBid then decide (p < l.price) else decide (p > l.price)

/-- The loop of `std::lower_bound`: `first` is the iterator, `len` the remaining length.
The first argument bounds the number of iterations; `len` halves each time, so `len`
iterations are enough. -/
def lower_bound_loop (comp : Book.Level → ℚ → Bool) (cont : List Book.Level) (val : ℚ) :
    Nat → Nat → Nat → Nat
  | 0, first, _ => first
  | fuel + 1, first, len =>
    if len = 0 then first
    else
      let half := len / 2
      let middle := first + half
      match cont[middle]? with
      | some l =>
        if comp l val then lower_bound_loop comp cont val fuel (middle + 1) (len - half - 1)
        else lower_bound_loop comp cont val fuel first half
      | none => first

/-- The call `std::lower_bound(cont.begin(), cont.end(), val, comp)`, as an index. -/
def lower_bound (cont : List Book.Level) (val : ℚ) (comp : Book.Level → ℚ → Bool) : Nat :=
  lower_bound_loop comp cont val cont.length 0 cont.length

/-- The side a template instance works on: `bids` for `isBid`, `offers` otherwise. -/
def Book.side (isBid : Bool) (b : Book) : List Book.Level :=
  if isBid then b.bids else b.offers

/-- Write back the side a template instance works on. -/
def Book.setSide (isBid : Bool) (b : Book) (cont : List Book.Level) : Book :=
  if isBid then { b with bids := cont } else { b with offers := cont }

/-- The lookup `Book::levelQty<isBid>`. -/
def Book.levelQty (isBid : Bool) (b : Book) (price : ℚ) : Int :=
  let cont := if isBid then b.bids else b.offers
  let itr := lower_bound cont price (Book.lt isBid)
  match cont[itr]? with
  | some l => if l.price = price then l.quantity else 0
  | none => 0

/-- The template `Book::add<isBid>` on the side it is called with. -/
def Book.add_isBid (isBid : Bool) (b : Book) (price : ℚ) (quantity : Int) : Bool × Book :=
  if price > 0 ∧ quantity > 0 then
    let cont := b.side isBid
    let itr := lower_bound cont price (Book.lt isBid)
    match cont[itr]? with
    | some l =>
      if price = l.price then
        (true, b.setSide isBid
          (cont.set itr { l with quantity := l.quantity + quantity, count := l.count + 1 }))
      else
        (true, b.setSide isBid (cont.take itr ++ ⟨price, quantity, 1⟩ :: cont.drop itr))
    | none => (true, b.setSide isBid (cont ++ [⟨price, quantity, 1⟩]))
  else (false, b)

/-- The template `Book::remove<isBid>` on the side it is called with. When `levelQty`
is nonzero the iterator points at a level, so the last branch is never taken. -/
def Book.remove_isBid (isBid : Bool) (b : Book) (price : ℚ) (quantity : Int) : Bool × Book :=
  if b.levelQty isBid price ≠ 0 then
    let cont := b.side isBid
    let itr := lower_bound cont price (Book.lt isBid)
    match cont[itr]? with
    | some l =>
      if l.count = 1 then (true, b.setSide isBid (cont.eraseIdx itr))
      else
        (true, b.setSide isBid
          (cont.set itr { l with quantity := l.quantity - quantity, count := l.count - 1 }))
    | none => (true, b)
  else (false, b)

/-- The template `Book::replace<isBid>` on the side it is called with. -/
def Book.replace_isBid (isBid : Bool) (b : Book) (price : ℚ) (quantity : Int) : Bool × Book :=
  if b.levelQty isBid price ≠ 0 then
    let cont := b.side isBid
    let itr := lower_bound cont price (Book.lt isBid)
    match cont[itr]? with
    | some l => (true, b.setSide isBid (cont.set itr { l with quantity := quantity }))
    | none => (true, b)
  else (false, b)

/-- The dispatcher `Book::add(char side, ...)`. -/
def Book.add (b : Book) (side : Char) (price : ℚ) (quantity : Int) : Bool × Book :=
  if side = 'B' then b.add_isBid true price quantity else b.add_isBid false price quantity

/-- The dispatcher `Book::remove(char side, ...)`. -/
def Book.remove (b : Book) (side : Char) (price : ℚ) (quantity : Int) : Bool × Book :=
  if side = 'B' then b.remove_isBid true price quantity else b.remove_isBid false price quantity

/-- The dispatcher `Book::replace(char side, ...)`. -/
def Book.replace (b : Book) (side : Char) (price : ℚ) (quantity : Int) : Bool × Book :=
  if side = 'B' then b.replace_isBid true price quantity
  else b.replace_isBid false price quantity

/-- One call on a `Book`. -/
inductive BookOp where
  | add (side : Char) (price : ℚ) (quantity : Int)
  | remove (side : Char) (price : ℚ) (quantity : Int)
  | replace (side : Char) (price : ℚ) (quantity : Int)

/-- Perform one call on a book: the returned flag and the book afterwards. -/
def Book.step (b : Book) : BookOp → Bool × Book
  | .add side price quantity => b.add side price quantity
  | .remove side price quantity => b.remove side price quantity
  | .replace side price quantity => b.replace side price quantity

/-- Perform a sequence of calls on a book, whatever each call returns. -/
def Book.run (b : Book) (ops : List BookOp) : Book :=
  ops.foldl (fun acc op => (acc.step op).2) b

/-- A price is better than another on a side: higher for bids, lower for offers. -/
def Book.better (isBid : Bool) (x y : ℚ) : Prop :=
  if isBid then y < x else x < y

instance (isBid : Bool) (x y : ℚ) : Decidable (Book.better isBid x y) :=
  inferInstanceAs (Decidable (if isBid then y < x else x < y))

/-- A side is sorted: strictly descending prices for bids, strictly ascending for offers. -/
def Book.SortedSide (isBid : Bool) (cont : List Book.Level) : Prop :=
  cont.Pairwise (fun a c => Book.better isBid a.price c.price)

instance (isBid : Bool) (cont : List Book.Level) : Decidable (Book.SortedSide isBid cont) :=
  inferInstanceAs
    (Decidable (cont.Pairwise (fun (a c : Book.Level) => Book.better isBid a.price c.price)))

/-- Both sides of a book are sorted. -/
def Book.Sorted (b : Book) : Prop :=
  Book.SortedSide true b.bids ∧ Book.SortedSide false b.offers

instance (b : Book) : Decidable b.Sorted :=
  inferInstanceAs (Decidable (Book.SortedSide true b.bids ∧ Book.SortedSide false b.offers))

/-- The state of `OrderBookMgr`: the `orders` map and the `books` map (the books
themselves, which the source holds through shared pointers). -/
structure OrderBookMgr where
  orders : List (Int × Order)
  books : List (Int × Book)
deriving DecidableEq

/-- The default-constructed manager. -/
def OrderBookMgr.empty : OrderBookMgr := ⟨[], []⟩

/-- The query `OrderBookMgr::orderExist`. -/
def OrderBookMgr.orderExist (m : OrderBookMgr) (orderId : Int) : Bool :=
  (m.orders.lookup orderId).isSome

/-- The query `OrderBookMgr::bookExist`. -/
def OrderBookMgr.bookExist (m : OrderBookMgr) (bookId : Int) : Bool :=
  (m.books.lookup bookId).isSome

/-- The query `OrderBookMgr::getBook`; `none` is the null pointer. -/
def OrderBookMgr.getBook (m : OrderBookMgr) (bookId : Int) : Option Book :=
  m.books.lookup bookId

/-- The query `OrderBookMgr::orderSize`. -/
def OrderBookMgr.orderSize (m : OrderBookMgr) : Int := m.orders.length

/-- The query `OrderBookMgr::bookSize`. -/
def OrderBookMgr.bookSize (m : OrderBookMgr) : Int := m.books.length

/-- A write through the shared pointer found under `bookId`: the first entry with that
key now holds `b`. -/
def setBook : List (Int × Book) → Int → Book → List (Int × Book)
  | [], _, _ => []
  | (k, old) :: rest, bookId, b =>
    if k = bookId then (k, b) :: rest else (k, old) :: setBook rest bookId b

/-- The call `orders.erase(itr)` with `itr = orders.find(orderId)`: the first entry with
that key is dropped. -/
def eraseOrder : List (Int × Order) → Int → List (Int × Order)
  | [], _ => []
  | (k, o) :: rest, orderId =>
    if k = orderId then rest else (k, o) :: eraseOrder rest orderId

/-- The method `OrderBookMgr::add`. A new book is stored only when its `add` succeeds;
an existing book is written through its pointer whatever `add` returns. -/
def OrderBookMgr.add (hash : String → Int) (m : OrderBookMgr) (order : Order) :
    Bool × OrderBookMgr :=
  if !m.orderExist order.id then
    let bookId := hash order.symbol
    if !m.bookExist bookId then
      let r := (Book.new bookId).add order.side order.price order.quantity
      if r.1 then
        (true, { orders := (order.id, order) :: m.orders, books := (bookId, r.2) :: m.books })
      else (false, m)
    else
      match m.books.lookup bookId with
      | some b =>
        let r := b.add order.side order.price order.quantity
        if r.1 then
          (true, { orders := (order.id, order) :: m.orders,
                   books := setBook m.books bookId r.2 })
        else (false, { m with books := setBook m.books bookId r.2 })
      | none => (false, m)
  else (false, m)

/-- The method `OrderBookMgr::remove`. The result is `none` when the source dereferences
the null pointer that `getBook` returns for a missing book. -/
def OrderBookMgr.remove (hash : String → Int) (m : OrderBookMgr) (orderId : Int) :
    Option (Bool × OrderBookMgr) :=
  match m.orders.lookup orderId with
  | some order =>
    let bookId := hash order.symbol
    match m.getBook bookId with
    | some b =>
      let r := b.remove order.side order.price order.quantity
      if r.1 then
        some (true, { orders := eraseOrder m.orders orderId,
                      books := setBook m.books bookId r.2 })
      else some (false, { m with books := setBook m.books bookId r.2 })
    | none => none
  | none => some (false, m)

/-- The method `OrderBookMgr::replace`. The source declares `auto order = itr->second;`,
a copy of the stored record, so its final `order.quantity = quantity;` changes that local
copy only and the `orders` map is left as it was. The result is `none` when the source
dereferences the null pointer that `getBook` returns for a missing book. -/
def OrderBookMgr.replace (hash : String → Int) (m : OrderBookMgr) (orderId : Int)
    (quantity : Int) : Option (Bool × OrderBookMgr) :=
  match m.orders.lookup orderId with
  | some order =>
    let bookId := hash order.symbol
    match m.getBook bookId with
    | some b =>
      let levelQty :=
        if order.side = 'B' then b.levelQty true order.price else b.levelQty false order.price
      let newQty := levelQty - order.quantity + quantity
      let r := b.replace order.side order.price newQty
      some (r.1, { m with books := setBook m.books bookId r.2 })
    | none => none
  | none => some (false, m)

/-- One call on the manager. -/
inductive MgrOp where
  | add (order : Order)
  | remove (orderId : Int)
  | replace (orderId : Int) (quantity : Int)

/-- Perform one call on the manager. -/
def OrderBookMgr.step (hash : String → Int) (m : OrderBookMgr) :
    MgrOp → Option (Bool × OrderBookMgr)
  | .add order => some (m.add hash order)
  | .remove orderId => m.remove hash orderId
  | .replace orderId quantity => m.replace hash orderId quantity

/-- Perform a sequence of calls on the manager, whatever each call returns. -/
def OrderBookMgr.run (hash : String → Int) : OrderBookMgr → List MgrOp → Option OrderBookMgr
  | m, [] => some m
  | m, op :: ops =>
    match m.step hash op with
    | some r => OrderBookMgr.run hash r.2 ops
    | none => none

/-- The states the manager can be in: those a sequence of calls leads to from the
default-constructed manager. -/
def OrderBookMgr.Reachable (hash : String → Int) (m : OrderBookMgr) : Prop :=
  ∃ ops, OrderBookMgr.run hash OrderBookMgr.empty ops = some m

/-- An order rests at one price of one side of the book `bookId`: its symbol maps to the
book, its side selects the side (`'B'` the bids, anything else the offers) and its price
is the price. -/
def Order.restsAt (hash : String → Int) (bookId : Int) (isBid : Bool) (price : ℚ)
    (o : Order) : Bool :=
  decide (hash o.symbol = bookId ∧ decide (o.side = 'B') = isBid ∧ o.price = price)

/-- The stored records among `orders` that rest at one price of one side of a book. -/
def ordersAt (hash : String → Int) (orders : List (Int × Order)) (bookId : Int)
    (isBid : Bool) (price : ℚ) : List Order :=
  (orders.map Prod.snd).filter (Order.restsAt hash bookId isBid price)

/-- The number of tracked orders that rest at one price of one side of a book. -/
def OrderBookMgr.countAt (hash : String → Int) (m : OrderBookMgr) (bookId : Int)
    (isBid : Bool) (price : ℚ) : Int :=
  (ordersAt hash m.orders bookId isBid price).length

/-- The sum of the stored quantities of the tracked orders that rest at one price of one
side of a book. -/
def OrderBookMgr.quantityAt (hash : String → Int) (m : OrderBookMgr) (bookId : Int)
    (isBid : Bool) (price : ℚ) : Int :=
  ((ordersAt hash m.orders bookId isBid price).map (fun o => o.quantity)).sum

/-- The invariant of the manager: book keys are unique, every book is sorted, every level
counts the tracked orders resting at it, and every tracked order has its book and, there,
a level at its price on its side. -/
def OrderBookMgr.Inv (hash : String → Int) (m : OrderBookMgr) : Prop :=
  (m.books.map Prod.fst).Nodup ∧
  (∀ k b, m.books.lookup k = some b →
    b.Sorted ∧ ∀ isBid, ∀ l ∈ b.side isBid, l.count = m.countAt hash k isBid l.price) ∧
  (∀ e ∈ m.orders, ∃ b, m.books.lookup (hash e.2.symbol) = some b ∧
    ∃ l ∈ b.side (decide (e.2.side = 'B')), l.price = e.2.price)

/-- The query `Book::bidsSize`. The number of levels is far below `2^31`, so the
conversion of `bids.size()` to `int` is left out. -/
def Book.bidsSize (b : Book) : Int := b.bids.length

/-- The query `Book::offersSize`, as `Book.bidsSize`. -/
def Book.offersSize (b : Book) : Int := b.offers.length

/-- The access `v[index]` of a vector with an `int` index: `operator[]` takes a `size_t`, so
the index is converted modulo `2^64`. The result is `none` when the position is outside
the vector, where the source has undefined behaviour. -/
def vectorAt (v : List Book.Level) (index : Int) : Option Book.Level :=
  v[(index % 2 ^ 64).toNat]?

/-- The query `OrderBookMgr::priceOfSideLevel`. The value `some 0` is the failure value
the source returns; `none` is an access outside the vector. -/
def OrderBookMgr.priceOfSideLevel (hash : String → Int) (m : OrderBookMgr) (side : Char)
    (levelIndex : Int) (symbol : String) : Option ℚ :=
  let bookId := hash symbol
  if m.bookExist bookId then
    match m.books.lookup bookId with
    | some b =>
      if side = 'B' then
        if levelIndex < b.bidsSize then (vectorAt b.bids levelIndex).map (fun l => l.price)
        else some 0
      else
        if levelIndex < b.offersSize then (vectorAt b.offers levelIndex).map (fun l => l.price)
        else some 0
    | none => some 0
  else some 0

/-- The query `OrderBookMgr::qtyOfSideLevel`. The value `some 0` is the failure value the
source returns; `none` is an access outside the vector. -/
def OrderBookMgr.qtyOfSideLevel (hash : String → Int) (m : OrderBookMgr) (side : Char)
    (levelIndex : Int) (symbol : String) : Option Int :=
  let bookId := hash symbol
  if m.bookExist bookId then
    match m.books.lookup bookId with
    | some b =>
      if side = 'B' then
        if levelIndex < b.bidsSize then (vectorAt b.bids levelIndex).map (fun l => l.quantity)
        else some 0
      else
        if levelIndex < b.offersSize then
          (vectorAt b.offers levelIndex).map (fun l => l.quantity)
        else some 0
    | none => some 0
  else some 0

/-- A `double` as far as the code looks at it: NaN, or a value that takes part in the
order, given as a rational (the two infinities compare like any other ordered value and
are left out). -/
inductive Double where
  | nan
  | num (q : ℚ)
deriving DecidableEq

/-- The comparison `x > y` of two doubles: false when either is NaN. -/
def Double.gt : Double → Double → Bool
  | .num a, .num c => decide (a > c)
  | _, _ => false

/-- The comparison `x <= y` of two doubles: false when either is NaN. -/
def Double.le : Double → Double → Bool
  | .num a, .num c => decide (a ≤ c)
  | _, _ => false

/-- The template `Book::add<isBid>` with its price as a `double`. The guard
`price > 0 && quantity > 0` is the comparison of doubles, false for NaN; a price that
passes the guard is an ordered value, with which the body of the template runs. The
branch for NaN behind the guard is never reached. -/
def Book.add_isBid_double (isBid : Bool) (b : Book) (price : Double) (quantity : Int) :
    Bool × Book :=
  if Double.gt price (.num 0) = true ∧ quantity > 0 then
    match price with
    | .num p => b.add_isBid isBid p quantity
    | .nan => (true, b)
  else (false, b)

/-- The dispatcher `Book::add(char side, double price, int quantity)` with its price as a
`double`. -/
def Book.add_double (b : Book) (side : Char) (price : Double) (quantity : Int) : Bool × Book :=
  if side = 'B' then b.add_isBid_double true price quantity
  else b.add_isBid_double false price quantity

/-- The value a 32-bit `int` holds after an operation whose exact result is `x`:
`x` itself inside `[-2^31, 2^31)`, and its two's-complement wrap outside (signed overflow,
which the language leaves undefined). -/
def wrap32 (x : Int) : Int := (x + 2 ^ 31) % 2 ^ 32 - 2 ^ 31

/-- The template `Book::remove<isBid>` with the arithmetic of `int`: `itr->quantity -=
quantity` and `--(itr->count)` are 32-bit operations. When `levelQty` is nonzero the
iterator points at a level, so the last branch is never taken. -/
def Book.remove_isBid_i32 (isBid : Bool) (b : Book) (price : ℚ) (quantity : Int) : Bool × Book :=
  if b.levelQty isBid price ≠ 0 then
    let cont := b.side isBid
    let itr := lower_bound cont price (Book.lt isBid)
    match cont[itr]? with
    | some l =>
      if l.count = 1 then (true, b.setSide isBid (cont.eraseIdx itr))
      else
        (true, b.setSide isBid
          (cont.set itr { l with quantity := wrap32 (l.quantity - quantity),
                                 count := wrap32 (l.count - 1) }))
    | none => (true, b)
  else (false, b)

/-- The dispatcher `Book::remove(char side, ...)` with the arithmetic of `int`. -/
def Book.remove_i32 (b : Book) (side : Char) (price : ℚ) (quantity : Int) : Bool × Book :=
  if side = 'B' then b.remove_isBid_i32 true price quantity
  else b.remove_isBid_i32 false price quantity

/-! ## The ordered search -/

theorem lower_bound_loop_spec (comp : Book.Level → ℚ → Bool) (cont : List Book.Level) (val : ℚ)
    (hmono : ∀ (i j : Nat) (a c : Book.Level), i < j → cont[i]? = some a → cont[j]? = some c →
      comp c val = true → comp a val = true) :
    ∀ fuel first len : Nat, len ≤ fuel → first + len ≤ cont.length →
      (∀ (i : Nat) (a : Book.Level), i < first → cont[i]? = some a → comp a val = true) →
      (∀ (i : Nat) (a : Book.Level), first + len ≤ i → cont[i]? = some a →
        comp a val = false) →
      lower_bound_loop comp cont val fuel first len ≤ cont.length ∧
      (∀ (i : Nat) (a : Book.Level), i < lower_bound_loop comp cont val fuel first len →
        cont[i]? = some a → comp a val = true) ∧
      (∀ (i : Nat) (a : Book.Level), lower_bound_loop comp cont val fuel first len ≤ i →
        cont[i]? = some a → comp a val = false) := by
  intro fuel
  induction fuel with
  | zero =>
    intro first len hlen hbound hlo hhi
    have h0 : len = 0 := by omega
    subst h0
    simp only [lower_bound_loop]
    exact ⟨by omega, hlo, fun i a hi => hhi i a (by omega)⟩
  | succ fuel ih =>
    intro first len hlen hbound hlo hhi
    simp only [lower_bound_loop]
    by_cases h0 : len = 0
    · subst h0
      simp only [if_true]
      exact ⟨by omega, hlo, fun i a hi => hhi i a (by omega)⟩
    · simp only [h0, if_false]
      have hmid : first + len / 2 < cont.length := by
        have : len / 2 < len := Nat.div_lt_self (by omega) (by omega)
        omega
      have hget : cont[first + len / 2]? = some (cont[first + len / 2]) :=
        List.getElem?_eq_getElem hmid
      rw [hget]
      simp only
      by_cases hc : comp (cont[first + len / 2]) val = true
      · simp only [hc, if_true]
        apply ih
        · omega
        · have : len / 2 < len := Nat.div_lt_self (by omega) (by omega)
          omega
        · intro i a hi ha
          by_cases him : i = first + len / 2
          · subst him
            rw [hget] at ha
            cases ha
            exact hc
          · exact hmono i (first + len / 2) a _ (by omega) ha hget hc
        · intro i a hi ha
          apply hhi i a _ ha
          have : len / 2 < len := Nat.div_lt_self (by omega) (by omega)
          omega
      · simp only [hc]
        apply ih
        · have : len / 2 < len := Nat.div_lt_self (by omega) (by omega)
          omega
        · omega
        · exact hlo
        · intro i a hi ha
          by_cases him : i = first + len / 2
          · subst him
            rw [hget] at ha
            cases ha
            simpa using hc
          · by_contra hcon
            have hcon2 : comp a val = true := by simpa using hcon
            exact hc (hmono (first + len / 2) i _ a (by omega) hget ha hcon2)

theorem Book.lt_iff_better (isBid : Bool) (l : Book.Level) (p : ℚ) :
    Book.lt isBid l p = true ↔ Book.better isBid l.price p := by
  cases isBid <;> simp [Book.lt, Book.better]

theorem Book.better_irrefl (isBid : Bool) (x : ℚ) : ¬ Book.better isBid x x := by
  cases isBid <;> simp [Book.better]

theorem Book.better_trans {isBid : Bool} {x y z : ℚ} (h1 : Book.better isBid x y)
    (h2 : Book.better isBid y z) : Book.better isBid x z := by
  cases isBid <;> simp only [Book.better, if_true, Bool.false_eq_true, if_false] at * <;>
    linarith

theorem Book.better_of_not {isBid : Bool} {x y : ℚ} (h1 : ¬ Book.better isBid x y)
    (h2 : x ≠ y) : Book.better isBid y x := by
  cases isBid <;> simp only [Book.better, if_true, Bool.false_eq_true, if_false] at * <;>
    rcases lt_trichotomy x y with h | h | h <;> first | exact h | exact absurd h h1 | exact absurd h h2

theorem Book.better_asymm {isBid : Bool} {x y : ℚ} (h1 : Book.better isBid x y) :
    ¬ Book.better isBid y x :=
  fun h2 => Book.better_irrefl isBid x (Book.better_trans h1 h2)

theorem Book.better_ne {isBid : Bool} {x y : ℚ} (h1 : Book.better isBid x y) : x ≠ y := by
  intro h
  subst h
  exact Book.better_irrefl isBid x h1

/-- On a sorted side the ordered search stops at the end of the levels with a better
price: the side splits there, and what follows starts with the level at `p` if there is
one. -/
theorem lower_bound_locate (isBid : Bool) (cont : List Book.Level) (p : ℚ)
    (hs : Book.SortedSide isBid cont) :
    ∃ pre suf, cont = pre ++ suf ∧ lower_bound cont p (Book.lt isBid) = pre.length ∧
      (∀ a ∈ pre, Book.better isBid a.price p) ∧
      ((∃ s tl, suf = s :: tl ∧ s.price = p ∧ ∀ a ∈ tl, Book.better isBid p a.price) ∨
        (∀ a ∈ suf, Book.better isBid p a.price)) := by
  have hidx := List.pairwise_iff_getElem.mp hs
  have hmono : ∀ (i j : Nat) (a c : Book.Level), i < j → cont[i]? = some a →
      cont[j]? = some c → Book.lt isBid c p = true → Book.lt isBid a p = true := by
    intro i j a c hij ha hc hcp
    rw [Book.lt_iff_better] at *
    obtain ⟨hi, rfl⟩ := List.getElem?_eq_some.mp ha
    obtain ⟨hj, rfl⟩ := List.getElem?_eq_some.mp hc
    exact Book.better_trans (hidx i j hi hj hij) hcp
  obtain ⟨hk, hlo, hhi⟩ := lower_bound_loop_spec (Book.lt isBid) cont p hmono cont.length 0
    cont.length (le_refl _) (by omega) (by intro i a hi; omega)
    (by
      intro i a hi ha
      obtain ⟨hi2, _⟩ := List.getElem?_eq_some.mp ha
      omega)
  have hkdef : lower_bound cont p (Book.lt isBid) =
      lower_bound_loop (Book.lt isBid) cont p cont.length 0 cont.length := rfl
  rw [← hkdef] at hk hlo hhi
  generalize lower_bound cont p (Book.lt isBid) = k at hk hlo hhi
  refine ⟨cont.take k, cont.drop k, (List.take_append_drop k cont).symm, ?_, ?_, ?_⟩
  · simp [List.length_take, hk]
  · intro a ha
    obtain ⟨i, hi, rfl⟩ := List.mem_take_iff_getElem.mp ha
    have hi2 : i < cont.length := by
      have := Nat.lt_min.mp hi
      omega
    have := hlo i cont[i] (by have := Nat.lt_min.mp hi; omega) (List.getElem?_eq_getElem hi2)
    exact (Book.lt_iff_better isBid _ p).mp this
  · have hsuf : ∀ a ∈ cont.drop k, ¬ Book.better isBid a.price p := by
      intro a ha
      obtain ⟨i, hi, rfl⟩ := List.mem_drop_iff_getElem.mp ha
      have hi2 : k + i < cont.length := by omega
      have := hhi (k + i) cont[k + i] (by omega) (List.getElem?_eq_getElem hi2)
      rw [← Book.lt_iff_better]
      simp [this]
    have hsd : Book.SortedSide isBid (cont.drop k) := List.Pairwise.sublist (List.drop_sublist k cont) hs
    cases hd : cont.drop k with
    | nil => right; simp
    | cons s tl =>
      rw [hd] at hsuf hsd
      have hstl := List.pairwise_cons.mp hsd
      by_cases hsp : s.price = p
      · left
        refine ⟨s, tl, rfl, hsp, ?_⟩
        intro a ha
        rw [← hsp]
        exact hstl.1 a ha
      · right
        intro a ha
        rcases List.mem_cons.mp ha with rfl | hat
        · exact Book.better_of_not (hsuf a (List.mem_cons_self _ _)) hsp
        · exact Book.better_trans (Book.better_of_not (hsuf s (List.mem_cons_self _ _)) hsp)
            (hstl.1 a hat)

/-! ## The sides of a book -/

@[simp] theorem Book.side_setSide (isBid : Bool) (b : Book) (cont : List Book.Level) :
    (b.setSide isBid cont).side isBid = cont := by
  cases isBid <;> rfl

@[simp] theorem Book.side_setSide_not (isBid : Bool) (b : Book) (cont : List Book.Level) :
    (b.setSide isBid cont).side (!isBid) = b.side (!isBid) := by
  cases isBid <;> rfl

@[simp] theorem Book.setSide_side (isBid : Bool) (b : Book) : b.setSide isBid (b.side isBid) = b := by
  cases isBid <;> rfl

@[simp] theorem Book.id_setSide (isBid : Bool) (b : Book) (cont : List Book.Level) :
    (b.setSide isBid cont).id = b.id := by
  cases isBid <;> rfl

theorem Book.side_setSide_of_ne {x y : Bool} (h : x ≠ y) (b : Book) (cont : List Book.Level) :
    (b.setSide x cont).side y = b.side y := by
  cases x <;> cases y <;> first | rfl | exact absurd rfl h

theorem getElem?_length_append (pre suf : List Book.Level) :
    (pre ++ suf)[pre.length]? = suf.head? := by
  induction pre with
  | nil => cases suf <;> simp
  | cons a pre ih => simpa using ih

theorem set_length_append (pre tl : List Book.Level) (s x : Book.Level) :
    (pre ++ s :: tl).set pre.length x = pre ++ x :: tl := by
  induction pre with
  | nil => rfl
  | cons a pre ih => simp [ih]

theorem eraseIdx_length_append (pre tl : List Book.Level) (s : Book.Level) :
    (pre ++ s :: tl).eraseIdx pre.length = pre ++ tl := by
  induction pre with
  | nil => rfl
  | cons a pre ih => simp [ih]

/-- What `levelQty` returns on a sorted side: the quantity of the level at `price`, or 0
when the side has no such level. -/
theorem Book.levelQty_cases (isBid : Bool) (b : Book) (price : ℚ)
    (hs : Book.SortedSide isBid (b.side isBid)) :
    ∃ pre suf, b.side isBid = pre ++ suf ∧
      lower_bound (b.side isBid) price (Book.lt isBid) = pre.length ∧
      (∀ a ∈ pre, Book.better isBid a.price price) ∧
      ((∃ s tl, suf = s :: tl ∧ s.price = price ∧ (∀ a ∈ tl, Book.better isBid price a.price) ∧
          b.levelQty isBid price = s.quantity) ∨
        ((∀ a ∈ suf, Book.better isBid price a.price) ∧ b.levelQty isBid price = 0)) := by
  obtain ⟨pre, suf, hsplit, hk, hpre, hcase⟩ := lower_bound_locate isBid (b.side isBid) price hs
  refine ⟨pre, suf, hsplit, hk, hpre, ?_⟩
  have hq : b.levelQty isBid price =
      match (b.side isBid)[lower_bound (b.side isBid) price (Book.lt isBid)]? with
      | some l => if l.price = price then l.quantity else 0
      | none => 0 := rfl
  rw [hk] at hq
  rw [hsplit, getElem?_length_append] at hq
  rcases hcase with ⟨s, tl, rfl, hsp, htl⟩ | hall
  · left
    refine ⟨s, tl, rfl, hsp, htl, ?_⟩
    rw [hq]
    simp [hsp]
  · right
    refine ⟨hall, ?_⟩
    rw [hq]
    cases suf with
    | nil => rfl
    | cons s tl =>
      have := Book.better_ne (hall s (List.mem_cons_self _ _))
      simp [Ne.symm this]

/-- What `add<isBid>` does on a sorted side, for terms it accepts: the level at `price`
grows, or a new level goes in after the better prices and before the worse ones. -/
theorem Book.add_isBid_cases (isBid : Bool) (b : Book) (price : ℚ) (quantity : Int)
    (hs : Book.SortedSide isBid (b.side isBid)) (hp : 0 < price) (hq : 0 < quantity) :
    ∃ pre suf, b.side isBid = pre ++ suf ∧
      (∀ a ∈ pre, Book.better isBid a.price price) ∧
      ((∃ s tl, suf = s :: tl ∧ s.price = price ∧ (∀ a ∈ tl, Book.better isBid price a.price) ∧
          b.add_isBid isBid price quantity = (true, b.setSide isBid
            (pre ++ { s with quantity := s.quantity + quantity, count := s.count + 1 } :: tl))) ∨
        ((∀ a ∈ suf, Book.better isBid price a.price) ∧
          b.add_isBid isBid price quantity =
            (true, b.setSide isBid (pre ++ ⟨price, quantity, 1⟩ :: suf)))) := by
  obtain ⟨pre, suf, hsplit, hk, hpre, hcase⟩ := lower_bound_locate isBid (b.side isBid) price hs
  refine ⟨pre, suf, hsplit, hpre, ?_⟩
  have hadd : b.add_isBid isBid price quantity =
      match (b.side isBid)[lower_bound (b.side isBid) price (Book.lt isBid)]? with
      | some l =>
        if price = l.price then
          (true, b.setSide isBid ((b.side isBid).set
            (lower_bound (b.side isBid) price (Book.lt isBid))
            { l with quantity := l.quantity + quantity, count := l.count + 1 }))
        else
          (true, b.setSide isBid
            ((b.side isBid).take (lower_bound (b.side isBid) price (Book.lt isBid)) ++
              ⟨price, quantity, 1⟩ ::
                (b.side isBid).drop (lower_bound (b.side isBid) price (Book.lt isBid))))
      | none => (true, b.setSide isBid (b.side isBid ++ [⟨price, quantity, 1⟩])) := by
    simp [Book.add_isBid, hp, hq]
  rw [hk] at hadd
  rw [hsplit] at hadd
  rw [getElem?_length_append] at hadd
  rcases hcase with ⟨s, tl, rfl, hsp, htl⟩ | hall
  · left
    refine ⟨s, tl, rfl, hsp, htl, ?_⟩
    rw [hadd]
    simp [hsp, set_length_append]
  · right
    refine ⟨hall, ?_⟩
    rw [hadd]
    cases suf with
    | nil => simp
    | cons s tl =>
      have := Book.better_ne (hall s (List.mem_cons_self _ _))
      simp [this]

/-- What `remove<isBid>` does on a sorted side: it fails unless the side has a level
at `price` whose quantity is not 0; otherwise a level of count 1 is erased and any other
level is reduced. -/
theorem Book.remove_isBid_cases (isBid : Bool) (b : Book) (price : ℚ) (quantity : Int)
    (hs : Book.SortedSide isBid (b.side isBid)) :
    ∃ pre suf, b.side isBid = pre ++ suf ∧
      (∀ a ∈ pre, Book.better isBid a.price price) ∧
      ((∃ s tl, suf = s :: tl ∧ s.price = price ∧ (∀ a ∈ tl, Book.better isBid price a.price) ∧
          b.remove_isBid isBid price quantity =
            if s.quantity ≠ 0 then
              if s.count = 1 then (true, b.setSide isBid (pre ++ tl))
              else (true, b.setSide isBid
                (pre ++ { s with quantity := s.quantity - quantity, count := s.count - 1 } :: tl))
            else (false, b)) ∨
        ((∀ a ∈ suf, Book.better isBid price a.price) ∧
          b.remove_isBid isBid price quantity = (false, b))) := by
  obtain ⟨pre, suf, hsplit, hk, hpre, hcase⟩ := Book.levelQty_cases isBid b price hs
  refine ⟨pre, suf, hsplit, hpre, ?_⟩
  have hrem : b.remove_isBid isBid price quantity =
      if b.levelQty isBid price ≠ 0 then
        match (b.side isBid)[lower_bound (b.side isBid) price (Book.lt isBid)]? with
        | some l =>
          if l.count = 1 then
            (true, b.setSide isBid ((b.side isBid).eraseIdx
              (lower_bound (b.side isBid) price (Book.lt isBid))))
          else
            (true, b.setSide isBid ((b.side isBid).set
              (lower_bound (b.side isBid) price (Book.lt isBid))
              { l with quantity := l.quantity - quantity, count := l.count - 1 }))
        | none => (true, b)
      else (false, b) := rfl
  rw [hk, hsplit, getElem?_length_append] at hrem
  rcases hcase with ⟨s, tl, rfl, hsp, htl, hlq⟩ | ⟨hall, hlq⟩
  · left
    refine ⟨s, tl, rfl, hsp, htl, ?_⟩
    rw [hrem, hlq]
    simp [set_length_append, eraseIdx_length_append]
  · right
    refine ⟨hall, ?_⟩
    rw [hrem, hlq]
    simp

/-- What `replace<isBid>` does on a sorted side: it fails unless the side has a level
at `price` whose quantity is not 0; otherwise that level receives the new quantity. -/
theorem Book.replace_isBid_cases (isBid : Bool) (b : Book) (price : ℚ) (quantity : Int)
    (hs : Book.SortedSide isBid (b.side isBid)) :
    ∃ pre suf, b.side isBid = pre ++ suf ∧
      (∀ a ∈ pre, Book.better isBid a.price price) ∧
      ((∃ s tl, suf = s :: tl ∧ s.price = price ∧ (∀ a ∈ tl, Book.better isBid price a.price) ∧
          b.levelQty isBid price = s.quantity ∧
          b.replace_isBid isBid price quantity =
            if s.quantity ≠ 0 then
              (true, b.setSide isBid (pre ++ { s with quantity := quantity } :: tl))
            else (false, b)) ∨
        ((∀ a ∈ suf, Book.better isBid price a.price) ∧ b.levelQty isBid price = 0 ∧
          b.replace_isBid isBid price quantity = (false, b))) := by
  obtain ⟨pre, suf, hsplit, hk, hpre, hcase⟩ := Book.levelQty_cases isBid b price hs
  refine ⟨pre, suf, hsplit, hpre, ?_⟩
  have hrep : b.replace_isBid isBid price quantity =
      if b.levelQty isBid price ≠ 0 then
        match (b.side isBid)[lower_bound (b.side isBid) price (Book.lt isBid)]? with
        | some l =>
          (true, b.setSide isBid ((b.side isBid).set
            (lower_bound (b.side isBid) price (Book.lt isBid)) { l with quantity := quantity }))
        | none => (true, b)
      else (false, b) := rfl
  rw [hk, hsplit, getElem?_length_append] at hrep
  rcases hcase with ⟨s, tl, rfl, hsp, htl, hlq⟩ | ⟨hall, hlq⟩
  · left
    refine ⟨s, tl, rfl, hsp, htl, hlq, ?_⟩
    rw [hrep, hlq]
    simp [set_length_append]
  · right
    refine ⟨hall, hlq, ?_⟩
    rw [hrep, hlq]
    simp

/-! ## Sortedness is kept -/

theorem Book.sortedSide_insert {isBid : Bool} {pre suf : List Book.Level} (x : Book.Level)
    (hs : Book.SortedSide isBid (pre ++ suf))
    (hpre : ∀ a ∈ pre, Book.better isBid a.price x.price)
    (hsuf : ∀ a ∈ suf, Book.better isBid x.price a.price) :
    Book.SortedSide isBid (pre ++ x :: suf) := by
  unfold Book.SortedSide at *
  rw [List.pairwise_append] at hs ⊢
  obtain ⟨h1, h2, h3⟩ := hs
  refine ⟨h1, List.pairwise_cons.mpr ⟨hsuf, h2⟩, ?_⟩
  intro a ha c hc
  rcases List.mem_cons.mp hc with rfl | hc
  · exact hpre a ha
  · exact h3 a ha c hc

theorem Book.sortedSide_update {isBid : Bool} {pre tl : List Book.Level} (s x : Book.Level)
    (hx : x.price = s.price)
    (hs : Book.SortedSide isBid (pre ++ s :: tl)) :
    Book.SortedSide isBid (pre ++ x :: tl) := by
  unfold Book.SortedSide at *
  rw [List.pairwise_append] at hs ⊢
  obtain ⟨h1, h2, h3⟩ := hs
  rw [List.pairwise_cons] at h2 ⊢
  refine ⟨h1, ⟨fun a ha => hx ▸ h2.1 a ha, h2.2⟩, ?_⟩
  intro a ha c hc
  rcases List.mem_cons.mp hc with rfl | hc
  · rw [hx]
    exact h3 a ha s (List.mem_cons_self _ _)
  · exact h3 a ha c (List.mem_cons_of_mem _ hc)

theorem Book.sortedSide_erase {isBid : Bool} {pre tl : List Book.Level} {s : Book.Level}
    (hs : Book.SortedSide isBid (pre ++ s :: tl)) :
    Book.SortedSide isBid (pre ++ tl) :=
  List.Pairwise.sublist
    (List.Sublist.append_left (List.sublist_cons_self s tl) pre) hs

theorem Book.sorted_iff (b : Book) :
    b.Sorted ↔ ∀ isBid, Book.SortedSide isBid (b.side isBid) := by
  constructor
  · intro h isBid
    cases isBid
    · exact h.2
    · exact h.1
  · intro h
    exact ⟨h true, h false⟩

theorem Book.sorted_setSide {b : Book} (isBid : Bool) {cont : List Book.Level}
    (hb : b.Sorted) (hc : Book.SortedSide isBid cont) : (b.setSide isBid cont).Sorted := by
  cases isBid
  · exact ⟨hb.1, hc⟩
  · exact ⟨hc, hb.2⟩

theorem Book.sorted_add_isBid (isBid : Bool) (b : Book) (price : ℚ) (quantity : Int)
    (hb : b.Sorted) : (b.add_isBid isBid price quantity).2.Sorted := by
  by_cases hpq : price > 0 ∧ quantity > 0
  · have hs := (Book.sorted_iff b).mp hb isBid
    obtain ⟨pre, suf, hsplit, hpre, hcase⟩ :=
      Book.add_isBid_cases isBid b price quantity hs hpq.1 hpq.2
    rw [hsplit] at hs
    rcases hcase with ⟨s, tl, rfl, hsp, htl, hres⟩ | ⟨hall, hres⟩
    · rw [hres]
      exact Book.sorted_setSide isBid hb (Book.sortedSide_update s _ rfl hs)
    · rw [hres]
      exact Book.sorted_setSide isBid hb (Book.sortedSide_insert ⟨price, quantity, 1⟩ hs hpre hall)
  · simp only [Book.add_isBid, hpq, if_false]
    exact hb

theorem Book.sorted_remove_isBid (isBid : Bool) (b : Book) (price : ℚ) (quantity : Int)
    (hb : b.Sorted) : (b.remove_isBid isBid price quantity).2.Sorted := by
  have hs := (Book.sorted_iff b).mp hb isBid
  obtain ⟨pre, suf, hsplit, hpre, hcase⟩ := Book.remove_isBid_cases isBid b price quantity hs
  rw [hsplit] at hs
  rcases hcase with ⟨s, tl, rfl, hsp, htl, hres⟩ | ⟨hall, hres⟩
  · rw [hres]
    split_ifs
    · exact Book.sorted_setSide isBid hb (Book.sortedSide_erase hs)
    · exact Book.sorted_setSide isBid hb (Book.sortedSide_update s _ rfl hs)
    · exact hb
  · rw [hres]
    exact hb

theorem Book.sorted_replace_isBid (isBid : Bool) (b : Book) (price : ℚ) (quantity : Int)
    (hb : b.Sorted) : (b.replace_isBid isBid price quantity).2.Sorted := by
  have hs := (Book.sorted_iff b).mp hb isBid
  obtain ⟨pre, suf, hsplit, hpre, hcase⟩ := Book.replace_isBid_cases isBid b price quantity hs
  rw [hsplit] at hs
  rcases hcase with ⟨s, tl, rfl, hsp, htl, hlq, hres⟩ | ⟨hall, hlq, hres⟩
  · rw [hres]
    split_ifs
    · exact Book.sorted_setSide isBid hb (Book.sortedSide_update s _ rfl hs)
    · exact hb
  · rw [hres]
    exact hb

theorem Book.sorted_add (b : Book) (side : Char) (price : ℚ) (quantity : Int)
    (hb : b.Sorted) : (b.add side price quantity).2.Sorted := by
  unfold Book.add
  split_ifs
  · exact Book.sorted_add_isBid true b price quantity hb
  · exact Book.sorted_add_isBid false b price quantity hb

theorem Book.sorted_remove (b : Book) (side : Char) (price : ℚ) (quantity : Int)
    (hb : b.Sorted) : (b.remove side price quantity).2.Sorted := by
  unfold Book.remove
  split_ifs
  · exact Book.sorted_remove_isBid true b price quantity hb
  · exact Book.sorted_remove_isBid false b price quantity hb

theorem Book.sorted_replace (b : Book) (side : Char) (price : ℚ) (quantity : Int)
    (hb : b.Sorted) : (b.replace side price quantity).2.Sorted := by
  unfold Book.replace
  split_ifs
  · exact Book.sorted_replace_isBid true b price quantity hb
  · exact Book.sorted_replace_isBid false b price quantity hb

theorem Book.sorted_step (b : Book) (op : BookOp) (hb : b.Sorted) : (b.step op).2.Sorted := by
  cases op with
  | add side price quantity => exact Book.sorted_add b side price quantity hb
  | remove side price quantity => exact Book.sorted_remove b side price quantity hb
  | replace side price quantity => exact Book.sorted_replace b side price quantity hb

theorem Book.sorted_run (ops : List BookOp) : ∀ b : Book, b.Sorted → (b.run ops).Sorted := by
  induction ops with
  | nil => intro b hb; exact hb
  | cons op ops ih =>
    intro b hb
    exact ih _ (Book.sorted_step b op hb)

theorem Book.sorted_new (id : Int) : (Book.new id).Sorted :=
  ⟨List.Pairwise.nil, List.Pairwise.nil⟩

/-- C1. Sort invariant of `Book`: after any sequence of `add` / `remove` / `replace` calls
on an empty book, with any arguments and whatever each call returns, the bids are strictly
descending by price and the offers strictly ascending, so no price occurs twice on a
side. -/
theorem Book.sort_invariant (id : Int) (ops : List BookOp) :
    ((Book.new id).run ops).bids.Pairwise (fun a c => a.price > c.price) ∧
    ((Book.new id).run ops).offers.Pairwise (fun a c => a.price < c.price) ∧
    (((Book.new id).run ops).bids.map (fun l => l.price)).Nodup ∧
    (((Book.new id).run ops).offers.map (fun l => l.price)).Nodup := by
  have h := Book.sorted_run ops (Book.new id) (Book.sorted_new id)
  have hb : ((Book.new id).run ops).bids.Pairwise (fun a c => a.price > c.price) := by
    have := h.1
    simpa [Book.SortedSide, Book.better] using this
  have ho : ((Book.new id).run ops).offers.Pairwise (fun a c => a.price < c.price) := by
    have := h.2
    simpa [Book.SortedSide, Book.better] using this
  refine ⟨hb, ho, ?_, ?_⟩
  · rw [List.Nodup, List.pairwise_map]
    exact hb.imp (fun h => ne_of_gt h)
  · rw [List.Nodup, List.pairwise_map]
    exact ho.imp (fun h => ne_of_lt h)

/-! ## `Book::add` -/

theorem Book.add_isBid_fst (isBid : Bool) (b : Book) (price : ℚ) (quantity : Int) :
    (b.add_isBid isBid price quantity).1 = decide (price > 0 ∧ quantity > 0) := by
  unfold Book.add_isBid
  by_cases h : price > 0 ∧ quantity > 0
  · simp only [h, and_self, if_true, decide_True]
    split
    · split_ifs <;> rfl
    · rfl
  · simp only [h, if_false, decide_False]

theorem Book.add_isBid_of_not (isBid : Bool) (b : Book) (price : ℚ) (quantity : Int)
    (h : ¬ (price > 0 ∧ quantity > 0)) : b.add_isBid isBid price quantity = (false, b) := by
  simp only [Book.add_isBid, h, if_false]

/-- On ordered prices `Book::add` validates its terms atomically: it returns failure exactly when
`price <= 0` or `quantity <= 0`, and a failing call leaves both the bids and the offers
as they were. -/
theorem Book.add_validates (b : Book) (side : Char) (price : ℚ) (quantity : Int) :
    ((b.add side price quantity).1 = false ↔ (price ≤ 0 ∨ quantity ≤ 0)) ∧
    ((b.add side price quantity).1 = false →
      (b.add side price quantity).2.bids = b.bids ∧
      (b.add side price quantity).2.offers = b.offers) := by
  have hfst : (b.add side price quantity).1 = decide (price > 0 ∧ quantity > 0) := by
    unfold Book.add
    split_ifs <;> exact Book.add_isBid_fst _ b price quantity
  constructor
  · rw [hfst]
    simp only [decide_eq_false_iff_not, not_and_or, not_lt, gt_iff_lt]
  · intro hfail
    rw [hfst] at hfail
    have hn : ¬ (price > 0 ∧ quantity > 0) := by simpa using hfail
    have : b.add side price quantity = (false, b) := by
      unfold Book.add
      split_ifs <;> exact Book.add_isBid_of_not _ b price quantity hn
    rw [this]
    exact ⟨rfl, rfl⟩

/-- At concrete inputs: on a book with one bid, an offer with price 0 and a bid with
quantity -5 are both refused and the book keeps its levels. -/
theorem Book.add_validates_witness :
    (((⟨7, [⟨5, 10, 1⟩], []⟩ : Book).add 'S' 0 10).1 = false ∧
      ((⟨7, [⟨5, 10, 1⟩], []⟩ : Book).add 'S' 0 10).2.bids = [⟨5, 10, 1⟩] ∧
      ((⟨7, [⟨5, 10, 1⟩], []⟩ : Book).add 'S' 0 10).2.offers = []) ∧
    ((⟨7, [⟨5, 10, 1⟩], []⟩ : Book).add 'B' 5 (-5)).1 = false :=
  ⟨⟨((Book.add_validates ⟨7, [⟨5, 10, 1⟩], []⟩ 'S' 0 10).1).mpr (Or.inl (le_refl 0)),
    (Book.add_validates ⟨7, [⟨5, 10, 1⟩], []⟩ 'S' 0 10).2
      (((Book.add_validates ⟨7, [⟨5, 10, 1⟩], []⟩ 'S' 0 10).1).mpr (Or.inl (le_refl 0)))⟩,
   ((Book.add_validates ⟨7, [⟨5, 10, 1⟩], []⟩ 'B' 5 (-5)).1).mpr (Or.inr (by decide))⟩

theorem Book.add_eq (b : Book) (side : Char) (price : ℚ) (quantity : Int) :
    b.add side price quantity = b.add_isBid (decide (side = 'B')) price quantity := by
  unfold Book.add
  split_ifs with h <;> simp [h]

theorem Book.remove_eq (b : Book) (side : Char) (price : ℚ) (quantity : Int) :
    b.remove side price quantity = b.remove_isBid (decide (side = 'B')) price quantity := by
  unfold Book.remove
  split_ifs with h <;> simp [h]

theorem Book.replace_eq (b : Book) (side : Char) (price : ℚ) (quantity : Int) :
    b.replace side price quantity = b.replace_isBid (decide (side = 'B')) price quantity := by
  unfold Book.replace
  split_ifs with h <;> simp [h]

/-- In a side split around the only level at `p`, a position holding a level at `p` is
the position of the split. -/
theorem index_of_price {pre tl : List Book.Level} {s l : Book.Level} {p : ℚ} {i : Nat}
    (hpre : ∀ a ∈ pre, a.price ≠ p) (htl : ∀ a ∈ tl, a.price ≠ p)
    (hl : (pre ++ s :: tl)[i]? = some l) (hlp : l.price = p) : i = pre.length ∧ l = s := by
  rw [List.getElem?_append] at hl
  split_ifs at hl with hi
  · exact absurd hlp (hpre l (List.getElem?_mem hl))
  · cases hj : i - pre.length with
    | zero =>
      rw [hj] at hl
      simp only [List.getElem?_cons_zero, Option.some.injEq] at hl
      exact ⟨by omega, hl.symm⟩
    | succ j =>
      rw [hj] at hl
      simp only [List.getElem?_cons_succ] at hl
      exact absurd hlp (htl l (List.getElem?_mem hl))

/-- C9. `Book::add` at a new price inserts one level in order: on a sorted side with no
level at `price`, with `price > 0` and `quantity > 0`, the call succeeds and the side
becomes the old sequence, split in two, with the level `{price, quantity, 1}` in between:
every level before it has a better price, every level after it a worse one, the length
grows by one, and the other side is unchanged. -/
theorem Book.add_new_level (b : Book) (side : Char) (price : ℚ) (quantity : Int)
    (hs : Book.SortedSide (decide (side = 'B')) (b.side (decide (side = 'B'))))
    (hno : ∀ l ∈ b.side (decide (side = 'B')), l.price ≠ price)
    (hp : 0 < price) (hq : 0 < quantity) :
    (b.add side price quantity).1 = true ∧
    (∃ pre suf, b.side (decide (side = 'B')) = pre ++ suf ∧
      (b.add side price quantity).2.side (decide (side = 'B')) =
        pre ++ ⟨price, quantity, 1⟩ :: suf ∧
      (∀ a ∈ pre, Book.better (decide (side = 'B')) a.price price) ∧
      (∀ a ∈ suf, Book.better (decide (side = 'B')) price a.price)) ∧
    ((b.add side price quantity).2.side (decide (side = 'B'))).length =
      (b.side (decide (side = 'B'))).length + 1 ∧
    (b.add side price quantity).2.side (!decide (side = 'B')) =
      b.side (!decide (side = 'B')) := by
  rw [Book.add_eq]
  generalize decide (side = 'B') = isBid at *
  obtain ⟨pre, suf, hsplit, hpre, hcase⟩ := Book.add_isBid_cases isBid b price quantity hs hp hq
  rcases hcase with ⟨s, tl, rfl, hsp, htl, hres⟩ | ⟨hall, hres⟩
  · exact absurd hsp (hno s (by rw [hsplit]; simp))
  · rw [hres]
    refine ⟨rfl, ⟨pre, suf, hsplit, by simp, hpre, hall⟩, ?_, by simp⟩
    rw [hsplit]
    simp
    omega

/-- Effect of a successful `Book::remove` on unbounded integers: on a sorted side, a call that returns
success found the level at `price`, which splits the side; if that level had count 1 it
is gone (no level at `price` is left and the side is one shorter, whatever `quantity`
was), if it had a count above 1 it stays in place with `quantity` subtracted (also into
zero or below) and its count one less; every other level and the other side are
unchanged. -/
theorem Book.remove_effect (b : Book) (side : Char) (price : ℚ) (quantity : Int)
    (hs : Book.SortedSide (decide (side = 'B')) (b.side (decide (side = 'B'))))
    (hok : (b.remove side price quantity).1 = true) :
    (∃ pre s tl, b.side (decide (side = 'B')) = pre ++ s :: tl ∧ s.price = price ∧
      (s.count = 1 →
        (b.remove side price quantity).2.side (decide (side = 'B')) = pre ++ tl ∧
        (∀ a ∈ (b.remove side price quantity).2.side (decide (side = 'B')), a.price ≠ price) ∧
        ((b.remove side price quantity).2.side (decide (side = 'B'))).length + 1 =
          (b.side (decide (side = 'B'))).length) ∧
      (1 < s.count →
        (b.remove side price quantity).2.side (decide (side = 'B')) =
          pre ++ { price := s.price, quantity := s.quantity - quantity,
                   count := s.count - 1 } :: tl)) ∧
    (b.remove side price quantity).2.side (!decide (side = 'B')) =
      b.side (!decide (side = 'B')) := by
  rw [Book.remove_eq] at hok ⊢
  generalize decide (side = 'B') = isBid at *
  obtain ⟨pre, suf, hsplit, hpre, hcase⟩ := Book.remove_isBid_cases isBid b price quantity hs
  rcases hcase with ⟨s, tl, rfl, hsp, htl, hres⟩ | ⟨hall, hres⟩
  · rw [hres] at hok ⊢
    by_cases hq0 : s.quantity ≠ 0
    · rw [if_pos hq0] at hok ⊢
      refine ⟨⟨pre, s, tl, hsplit, hsp, ?_, ?_⟩, ?_⟩
      · intro hc
        simp only [hc, if_true, Book.side_setSide, true_and]
        refine ⟨?_, by rw [hsplit]; simp; omega⟩
        intro a ha
        rcases List.mem_append.mp ha with hm | hm
        · exact Book.better_ne (hpre a hm)
        · exact (Book.better_ne (htl a hm)).symm
      · intro hc
        have hne : s.count ≠ 1 := by omega
        simp only [hne, if_false, Book.side_setSide]
      · split_ifs <;> simp
    · rw [if_neg hq0] at hok
      cases hok
  · rw [hres] at hok
    cases hok

/-- C9 on the test's book: with offers at 86.6, 86.7, 86.8, 86.9 and 87.0, an offer at
86.72 succeeds, the side grows to six levels and the new level stands between 86.7 and
86.8. -/
theorem Book.add_new_level_witness :
    ((⟨0, [], [⟨86.6, 10000, 1⟩, ⟨86.7, 20000, 2⟩, ⟨86.8, 10000, 1⟩, ⟨86.9, 10000, 1⟩,
        ⟨87.0, 10000, 1⟩]⟩ : Book).add 'O' 86.72 10000).1 = true ∧
    (((⟨0, [], [⟨86.6, 10000, 1⟩, ⟨86.7, 20000, 2⟩, ⟨86.8, 10000, 1⟩, ⟨86.9, 10000, 1⟩,
        ⟨87.0, 10000, 1⟩]⟩ : Book).add 'O' 86.72 10000).2.offers).length = 6 ∧
    ((⟨0, [], [⟨86.6, 10000, 1⟩, ⟨86.7, 20000, 2⟩, ⟨86.8, 10000, 1⟩, ⟨86.9, 10000, 1⟩,
        ⟨87.0, 10000, 1⟩]⟩ : Book).add 'O' 86.72 10000).2.offers =
      [⟨86.6, 10000, 1⟩, ⟨86.7, 20000, 2⟩, ⟨86.72, 10000, 1⟩, ⟨86.8, 10000, 1⟩,
        ⟨86.9, 10000, 1⟩, ⟨87.0, 10000, 1⟩] := by
  have h := Book.add_new_level
    ⟨0, [], [⟨86.6, 10000, 1⟩, ⟨86.7, 20000, 2⟩, ⟨86.8, 10000, 1⟩, ⟨86.9, 10000, 1⟩,
      ⟨87.0, 10000, 1⟩]⟩ 'O' 86.72 10000
    (by norm_num [Book.SortedSide, Book.better, Book.side, (by decide : ¬ ('O' = 'B'))])
    (by
      intro l hl
      simp only [Book.side, (by decide : ¬ ('O' = 'B')), decide_False, Bool.false_eq_true,
        if_false, List.mem_cons, List.mem_singleton, List.not_mem_nil, or_false] at hl
      rcases hl with rfl | rfl | rfl | rfl | rfl <;> norm_num)
    (by norm_num) (by norm_num)
  refine ⟨h.1, ?_, ?_⟩
  · have h2 := h.2.2.1
    simp only [Book.side] at h2
    simpa using h2
  · norm_num [Book.add, Book.add_isBid, lower_bound, lower_bound_loop, Book.side,
      Book.setSide, Book.lt, (by decide : ¬ ('O' = 'B'))]

/-- On a small book: removing from the bid level `{5, 10, 1}` succeeds and leaves no
bid level, whatever quantity is passed, and the offers stay. -/
theorem Book.remove_effect_witness :
    ((⟨0, [⟨5, 10, 1⟩], [⟨7, 4, 1⟩]⟩ : Book).remove 'B' 5 3).1 = true ∧
    ((⟨0, [⟨5, 10, 1⟩], [⟨7, 4, 1⟩]⟩ : Book).remove 'B' 5 3).2.bids = [] ∧
    ((⟨0, [⟨5, 10, 1⟩], [⟨7, 4, 1⟩]⟩ : Book).remove 'B' 5 3).2.side (!decide ('B' = 'B')) =
      (⟨0, [⟨5, 10, 1⟩], [⟨7, 4, 1⟩]⟩ : Book).side (!decide ('B' = 'B')) :=
  ⟨by decide, by decide,
    (Book.remove_effect ⟨0, [⟨5, 10, 1⟩], [⟨7, 4, 1⟩]⟩ 'B' 5 3 (by decide) (by decide)).2⟩

/-! ## The existence test of `remove` and `replace` -/

/-- On a sorted side `remove<isBid>` succeeds exactly when the side has a level at
`price` whose quantity is not 0. -/
theorem Book.remove_isBid_succeeds_iff (isBid : Bool) (b : Book) (price : ℚ) (quantity : Int)
    (hs : Book.SortedSide isBid (b.side isBid)) :
    (b.remove_isBid isBid price quantity).1 = true ↔
      ∃ l ∈ b.side isBid, l.price = price ∧ l.quantity ≠ 0 := by
  obtain ⟨pre, suf, hsplit, hpre, hcase⟩ := Book.remove_isBid_cases isBid b price quantity hs
  rcases hcase with ⟨s, tl, rfl, hsp, htl, hres⟩ | ⟨hall, hres⟩
  · rw [hres, hsplit]
    constructor
    · intro h
      by_cases hq0 : s.quantity ≠ 0
      · exact ⟨s, by simp, hsp, hq0⟩
      · rw [if_neg hq0] at h
        cases h
    · rintro ⟨l, hl, hlp, hlq⟩
      obtain ⟨i, hi⟩ := List.mem_iff_getElem?.mp hl
      obtain ⟨-, rfl⟩ := index_of_price (fun a ha => Book.better_ne (hpre a ha))
        (fun a ha => (Book.better_ne (htl a ha)).symm) hi hlp
      rw [if_pos hlq]
      split_ifs <;> rfl
  · rw [hres, hsplit]
    constructor
    · intro h
      cases h
    · rintro ⟨l, hl, hlp, -⟩
      exfalso
      rcases List.mem_append.mp hl with hm | hm
      · exact Book.better_ne (hpre l hm) hlp
      · exact Book.better_ne (hall l hm) hlp.symm

/-- On a sorted side `replace<isBid>` succeeds exactly when the side has a level at
`price` whose quantity is not 0. -/
theorem Book.replace_isBid_succeeds_iff (isBid : Bool) (b : Book) (price : ℚ) (quantity : Int)
    (hs : Book.SortedSide isBid (b.side isBid)) :
    (b.replace_isBid isBid price quantity).1 = true ↔
      ∃ l ∈ b.side isBid, l.price = price ∧ l.quantity ≠ 0 := by
  obtain ⟨pre, suf, hsplit, hpre, hcase⟩ := Book.replace_isBid_cases isBid b price quantity hs
  rcases hcase with ⟨s, tl, rfl, hsp, htl, -, hres⟩ | ⟨hall, -, hres⟩
  · rw [hres, hsplit]
    constructor
    · intro h
      by_cases hq0 : s.quantity ≠ 0
      · exact ⟨s, by simp, hsp, hq0⟩
      · rw [if_neg hq0] at h
        cases h
    · rintro ⟨l, hl, hlp, hlq⟩
      obtain ⟨i, hi⟩ := List.mem_iff_getElem?.mp hl
      obtain ⟨-, rfl⟩ := index_of_price (fun a ha => Book.better_ne (hpre a ha))
        (fun a ha => (Book.better_ne (htl a ha)).symm) hi hlp
      rw [if_pos hlq]
  · rw [hres, hsplit]
    constructor
    · intro h
      cases h
    · rintro ⟨l, hl, hlp, -⟩
      exfalso
      rcases List.mem_append.mp hl with hm | hm
      · exact Book.better_ne (hpre l hm) hlp
      · exact Book.better_ne (hall l hm) hlp.symm

/-- C6. The code at a failing input: after `add('B', 5, 10)` and `replace('B', 5, 0)` on
an empty book the bids hold the level `{5, 0, 1}`, the book is sorted, and yet both
`remove('B', 5, 10)` and `replace('B', 5, 7)` return failure: the test `levelQty != 0`
takes a level of quantity 0 for a missing level. -/
theorem Book.level_of_quantity_zero_not_found :
    ((Book.new 0).run [.add 'B' 5 10, .replace 'B' 5 0]).bids = [⟨5, 0, 1⟩] ∧
    ((Book.new 0).run [.add 'B' 5 10, .replace 'B' 5 0]).Sorted ∧
    (((Book.new 0).run [.add 'B' 5 10, .replace 'B' 5 0]).remove 'B' 5 10).1 = false ∧
    (((Book.new 0).run [.add 'B' 5 10, .replace 'B' 5 0]).replace 'B' 5 7).1 = false := by
  decide

/-! ## `OrderBookMgr::replace` and the stored order -/

/-- The method `replace` never writes to the `orders` map. -/
theorem OrderBookMgr.replace_orders (hash : String → Int) (m : OrderBookMgr) (orderId : Int)
    (quantity : Int) (r : Bool × OrderBookMgr)
    (h : m.replace hash orderId quantity = some r) : r.2.orders = m.orders := by
  unfold OrderBookMgr.replace at h
  cases ho : m.orders.lookup orderId with
  | none =>
    rw [ho] at h
    simp only [Option.some.injEq] at h
    subst h
    rfl
  | some order =>
    rw [ho] at h
    simp only at h
    cases hb : m.getBook (hash order.symbol) with
    | none =>
      rw [hb] at h
      cases h
    | some b =>
      rw [hb] at h
      simp only [Option.some.injEq] at h
      subst h
      rfl

/-- C2. The code at a failing input: after adding order 1 (bid, price 5, quantity 10)
and `replace(1, 8)` the bid level at 5 holds quantity 8, while the only tracked order at
that price still stores quantity 10, so the level's quantity is not the sum of the
stored quantities. -/
theorem OrderBookMgr.quantity_invariant_broken_by_replace :
    OrderBookMgr.run (fun s => s.length) OrderBookMgr.empty
        [.add ⟨1, 'B', 5, 10, "X"⟩, .replace 1 8] =
      some ⟨[(1, ⟨1, 'B', 5, 10, "X"⟩)], [(1, ⟨1, [⟨5, 8, 1⟩], []⟩)]⟩ ∧
    OrderBookMgr.quantityAt (fun s => s.length)
      ⟨[(1, ⟨1, 'B', 5, 10, "X"⟩)], [(1, ⟨1, [⟨5, 8, 1⟩], []⟩)]⟩ 1 true 5 = 10 := by
  decide

/-- C4. The code at a failing input: with order 1 tracked at quantity 10,
`replace(1, 8)` returns success and the record stored under id 1 afterwards still has
quantity 10. -/
theorem OrderBookMgr.replace_keeps_stored_quantity :
    (OrderBookMgr.replace (fun s => s.length)
        ⟨[(1, ⟨1, 'B', 5, 10, "X"⟩)], [(1, ⟨1, [⟨5, 10, 1⟩], []⟩)]⟩ 1 8).map
      (fun r => (r.1, r.2.orders.lookup 1)) =
    some (true, some ⟨1, 'B', 5, 10, "X"⟩) := by
  decide

/-- C5. The code at a failing input: order 1 is alone at its price; after `replace(1, 8)`
a second `replace(1, 5)` returns success and leaves the level at quantity 3 (8 - 10 + 5,
computed from the stale stored quantity 10), so `levelQty` is 3, not 5. -/
theorem OrderBookMgr.second_replace_misses_quantity :
    OrderBookMgr.run (fun s => s.length) OrderBookMgr.empty
        [.add ⟨1, 'B', 5, 10, "X"⟩, .replace 1 8] =
      some ⟨[(1, ⟨1, 'B', 5, 10, "X"⟩)], [(1, ⟨1, [⟨5, 8, 1⟩], []⟩)]⟩ ∧
    OrderBookMgr.replace (fun s => s.length)
        ⟨[(1, ⟨1, 'B', 5, 10, "X"⟩)], [(1, ⟨1, [⟨5, 8, 1⟩], []⟩)]⟩ 1 5 =
      some (true, ⟨[(1, ⟨1, 'B', 5, 10, "X"⟩)], [(1, ⟨1, [⟨5, 3, 1⟩], []⟩)]⟩) ∧
    Book.levelQty true ⟨1, [⟨5, 3, 1⟩], []⟩ 5 = 3 := by
  decide

/-! ## The maps of the manager -/

theorem lookup_setBook (books : List (Int × Book)) (k : Int) (b : Book) (k2 : Int) :
    (setBook books k b).lookup k2 =
      if k2 = k then (books.lookup k).map (fun _ => b) else books.lookup k2 := by
  induction books with
  | nil => simp [setBook]
  | cons e rest ih =>
    obtain ⟨k1, b1⟩ := e
    by_cases h1 : k1 = k
    · subst h1
      by_cases h2 : k2 = k1
      · subst h2
        simp [setBook, List.lookup_cons]
      · have h3 : (k2 == k1) = false := by simpa using h2
        simp [setBook, List.lookup_cons, h2, h3]
    · by_cases h2 : k2 = k
      · subst h2
        have h3 : (k2 == k1) = false := by simpa using Ne.symm h1
        simp only [setBook, h1, if_false, List.lookup_cons, h3, ih, if_true]
      · simp only [setBook, h1, if_false, List.lookup_cons, ih, h2]

theorem keys_setBook (books : List (Int × Book)) (k : Int) (b : Book) :
    (setBook books k b).map Prod.fst = books.map Prod.fst := by
  induction books with
  | nil => rfl
  | cons e rest ih =>
    obtain ⟨k1, b1⟩ := e
    by_cases h1 : k1 = k
    · simp [setBook, h1]
    · simp [setBook, h1, ih]

theorem setBook_self (books : List (Int × Book)) (k : Int) (b : Book)
    (h : books.lookup k = some b) : setBook books k b = books := by
  induction books with
  | nil => rfl
  | cons e rest ih =>
    obtain ⟨k1, b1⟩ := e
    by_cases h1 : k1 = k
    · subst h1
      simp only [List.lookup_cons, beq_self_eq_true, Option.some.injEq] at h
      simp [setBook, h]
    · have h3 : (k == k1) = false := by simpa using Ne.symm h1
      simp only [List.lookup_cons, h3] at h
      simp [setBook, h1, ih h]

theorem lookup_of_mem_books {books : List (Int × Book)} (hn : (books.map Prod.fst).Nodup)
    {e : Int × Book} (he : e ∈ books) : books.lookup e.1 = some e.2 := by
  induction books with
  | nil => cases he
  | cons e1 rest ih =>
    obtain ⟨k1, b1⟩ := e1
    simp only [List.map_cons, List.nodup_cons] at hn
    rcases List.mem_cons.mp he with rfl | hmem
    · simp [List.lookup_cons]
    · have hne : e.1 ≠ k1 := by
        intro heq
        exact hn.1 (heq ▸ List.mem_map_of_mem Prod.fst hmem)
      have h3 : (e.1 == k1) = false := by simpa using hne
      simp only [List.lookup_cons, h3]
      exact ih hn.2 hmem

theorem mem_of_lookup {β : Type} {xs : List (Int × β)} {k : Int} {v : β}
    (h : xs.lookup k = some v) : (k, v) ∈ xs := by
  induction xs with
  | nil => cases h
  | cons e rest ih =>
    obtain ⟨k1, v1⟩ := e
    by_cases h1 : k = k1
    · subst h1
      simp only [List.lookup_cons, beq_self_eq_true, Option.some.injEq] at h
      subst h
      exact List.mem_cons_self _ _
    · have h3 : (k == k1) = false := by simpa using h1
      simp only [List.lookup_cons, h3] at h
      exact List.mem_cons_of_mem _ (ih h)

theorem not_mem_keys_of_lookup_none {β : Type} {xs : List (Int × β)} {k : Int}
    (h : xs.lookup k = none) : k ∉ xs.map Prod.fst := by
  induction xs with
  | nil => simp
  | cons e rest ih =>
    obtain ⟨k1, v1⟩ := e
    by_cases h1 : k = k1
    · subst h1
      simp [List.lookup_cons] at h
    · have h3 : (k == k1) = false := by simpa using h1
      simp only [List.lookup_cons, h3] at h
      simp only [List.map_cons, List.mem_cons, not_or]
      exact ⟨h1, ih h⟩

theorem mem_of_mem_eraseOrder {orders : List (Int × Order)} {orderId : Int} {e : Int × Order}
    (h : e ∈ eraseOrder orders orderId) : e ∈ orders := by
  induction orders with
  | nil => cases h
  | cons e1 rest ih =>
    obtain ⟨k1, o1⟩ := e1
    by_cases h1 : k1 = orderId
    · simp only [eraseOrder, h1, if_true] at h
      exact List.mem_cons_of_mem _ h
    · simp only [eraseOrder, h1, if_false] at h
      rcases List.mem_cons.mp h with rfl | hmem
      · exact List.mem_cons_self _ _
      · exact List.mem_cons_of_mem _ (ih hmem)

theorem ordersAt_cons (hash : String → Int) (e : Int × Order) (orders : List (Int × Order))
    (k : Int) (isBid : Bool) (p : ℚ) :
    ordersAt hash (e :: orders) k isBid p =
      if Order.restsAt hash k isBid p e.2 = true then e.2 :: ordersAt hash orders k isBid p
      else ordersAt hash orders k isBid p := by
  simp only [ordersAt, List.map_cons, List.filter_cons]

theorem length_ordersAt_cons (hash : String → Int) (e : Int × Order)
    (orders : List (Int × Order)) (k : Int) (isBid : Bool) (p : ℚ) :
    ((ordersAt hash (e :: orders) k isBid p).length : Int) =
      (ordersAt hash orders k isBid p).length +
        if Order.restsAt hash k isBid p e.2 = true then 1 else 0 := by
  rw [ordersAt_cons]
  split_ifs <;> simp

theorem length_ordersAt_erase (hash : String → Int) (orders : List (Int × Order))
    (orderId : Int) (o : Order) (h : orders.lookup orderId = some o)
    (k : Int) (isBid : Bool) (p : ℚ) :
    ((ordersAt hash (eraseOrder orders orderId) k isBid p).length : Int) +
        (if Order.restsAt hash k isBid p o = true then 1 else 0) =
      (ordersAt hash orders k isBid p).length := by
  induction orders with
  | nil => cases h
  | cons e rest ih =>
    obtain ⟨k1, o1⟩ := e
    by_cases h1 : k1 = orderId
    · subst h1
      simp only [List.lookup_cons, beq_self_eq_true, Option.some.injEq] at h
      subst h
      simp only [eraseOrder, if_true]
      rw [length_ordersAt_cons]
    · have h3 : (orderId == k1) = false := by simpa using Ne.symm h1
      simp only [List.lookup_cons, h3] at h
      simp only [eraseOrder, h1, if_false]
      rw [length_ordersAt_cons, length_ordersAt_cons, ← ih h]
      ring

theorem length_ordersAt_pos (hash : String → Int) {orders : List (Int × Order)}
    {e : Int × Order} (he : e ∈ orders) {k : Int} {isBid : Bool} {p : ℚ}
    (hr : Order.restsAt hash k isBid p e.2 = true) :
    (0 : Int) < (ordersAt hash orders k isBid p).length := by
  have : e.2 ∈ ordersAt hash orders k isBid p := by
    simp only [ordersAt, List.mem_filter, List.mem_map]
    exact ⟨⟨e, he, rfl⟩, hr⟩
  have := List.length_pos_of_mem this
  omega

theorem Order.restsAt_self (hash : String → Int) (o : Order) :
    Order.restsAt hash (hash o.symbol) (decide (o.side = 'B')) o.price o = true := by
  simp [Order.restsAt]

theorem Order.restsAt_iff (hash : String → Int) (k : Int) (isBid : Bool) (p : ℚ) (o : Order) :
    Order.restsAt hash k isBid p o = true ↔
      hash o.symbol = k ∧ decide (o.side = 'B') = isBid ∧ o.price = p := by
  simp [Order.restsAt]

/-! ## The invariant of the manager -/

/-- The invariant after a call that touched the book under `k` only. -/
theorem OrderBookMgr.inv_of_update (hash : String → Int) (m m2 : OrderBookMgr) (k : Int)
    (b2 : Book) (hinv : m.Inv hash)
    (hkeys : (m2.books.map Prod.fst).Nodup)
    (hlook : ∀ k1, m2.books.lookup k1 = if k1 = k then some b2 else m.books.lookup k1)
    (hsorted : b2.Sorted)
    (hcount : ∀ isBid, ∀ l ∈ b2.side isBid, l.count = m2.countAt hash k isBid l.price)
    (hother : ∀ k1, k1 ≠ k → ∀ s p, m2.countAt hash k1 s p = m.countAt hash k1 s p)
    (horders : ∀ e ∈ m2.orders,
      (hash e.2.symbol = k → ∃ l ∈ b2.side (decide (e.2.side = 'B')), l.price = e.2.price) ∧
      (hash e.2.symbol ≠ k → e ∈ m.orders)) :
    m2.Inv hash := by
  obtain ⟨-, hbooks, hconv⟩ := hinv
  refine ⟨hkeys, ?_, ?_⟩
  · intro k1 b1 hk1
    rw [hlook] at hk1
    by_cases h : k1 = k
    · subst h
      simp only [if_true, Option.some.injEq] at hk1
      subst hk1
      exact ⟨hsorted, hcount⟩
    · simp only [h, if_false] at hk1
      obtain ⟨hs1, hc1⟩ := hbooks k1 b1 hk1
      refine ⟨hs1, ?_⟩
      intro isBid l hl
      rw [hother k1 h]
      exact hc1 isBid l hl
  · intro e he
    by_cases h : hash e.2.symbol = k
    · refine ⟨b2, ?_, (horders e he).1 h⟩
      rw [hlook, if_pos h]
    · obtain ⟨b1, hb1, hl1⟩ := hconv e ((horders e he).2 h)
      refine ⟨b1, ?_, hl1⟩
      rw [hlook, if_neg h]
      exact hb1

/-- The counts of the levels of a book after an `add<isBid>` that the book accepts. -/
theorem Book.count_add_isBid (isBid0 : Bool) (b : Book) (p : ℚ) (q : Int)
    (c : Bool → ℚ → Int) (hs : b.Sorted) (hp : 0 < p) (hq : 0 < q)
    (hc : ∀ s, ∀ l ∈ b.side s, l.count = c s l.price)
    (hzero : (∀ l ∈ b.side isBid0, l.price ≠ p) → c isBid0 p = 0) :
    (∀ s, ∀ l ∈ (b.add_isBid isBid0 p q).2.side s,
      l.count = c s l.price + if s = isBid0 ∧ l.price = p then 1 else 0) ∧
    (∃ l ∈ (b.add_isBid isBid0 p q).2.side isBid0, l.price = p) ∧
    (∀ s, ∀ l ∈ b.side s, ∃ l2 ∈ (b.add_isBid isBid0 p q).2.side s, l2.price = l.price) := by
  obtain ⟨pre, suf, hsplit, hpre, hcase⟩ :=
    Book.add_isBid_cases isBid0 b p q ((Book.sorted_iff b).mp hs isBid0) hp hq
  have hc0 := hc isBid0
  rw [hsplit] at hc0
  rcases hcase with ⟨s0, tl, rfl, hsp, htl, hres⟩ | ⟨hall, hres⟩
  · rw [hres]
    refine ⟨?_, ⟨{ price := s0.price, quantity := s0.quantity + q, count := s0.count + 1 },
      by simp, hsp⟩, ?_⟩
    · intro s l hl
      by_cases hsame : s = isBid0
      · subst hsame
        simp only [Book.side_setSide, List.mem_append, List.mem_cons] at hl
        rcases hl with hm | rfl | hm
        · have := Book.better_ne (hpre l hm)
          simp [this, hc0 l (by simp [hm])]
        · simp [hsp, hc0 s0 (by simp)]
        · have := (Book.better_ne (htl l hm)).symm
          simp [this, hc0 l (by simp [hm])]
      · rw [Book.side_setSide_of_ne (Ne.symm hsame)] at hl
        simp [hsame, hc s l hl]
    · intro s l hl
      by_cases hsame : s = isBid0
      · subst hsame
        rw [hsplit] at hl
        simp only [Book.side_setSide, List.mem_append, List.mem_cons] at hl ⊢
        rcases hl with hm | rfl | hm
        · exact ⟨l, Or.inl hm, rfl⟩
        · exact ⟨_, Or.inr (Or.inl rfl), rfl⟩
        · exact ⟨l, Or.inr (Or.inr hm), rfl⟩
      · rw [Book.side_setSide_of_ne (Ne.symm hsame)]
        exact ⟨l, hl, rfl⟩
  · rw [hres]
    have hz : c isBid0 p = 0 := by
      apply hzero
      intro l hl
      rw [hsplit] at hl
      rcases List.mem_append.mp hl with hm | hm
      · exact Book.better_ne (hpre l hm)
      · exact (Book.better_ne (hall l hm)).symm
    refine ⟨?_, ⟨⟨p, q, 1⟩, by simp, rfl⟩, ?_⟩
    · intro s l hl
      by_cases hsame : s = isBid0
      · subst hsame
        simp only [Book.side_setSide, List.mem_append, List.mem_cons] at hl
        rcases hl with hm | rfl | hm
        · have := Book.better_ne (hpre l hm)
          simp [this, hc0 l (by simp [hm])]
        · simp [hz]
        · have := (Book.better_ne (hall l hm)).symm
          simp [this, hc0 l (by simp [hm])]
      · rw [Book.side_setSide_of_ne (Ne.symm hsame)] at hl
        simp [hsame, hc s l hl]
    · intro s l hl
      by_cases hsame : s = isBid0
      · subst hsame
        rw [hsplit] at hl
        simp only [Book.side_setSide, List.mem_append, List.mem_cons] at hl ⊢
        rcases hl with hm | hm
        · exact ⟨l, Or.inl hm, rfl⟩
        · exact ⟨l, Or.inr (Or.inr hm), rfl⟩
      · rw [Book.side_setSide_of_ne (Ne.symm hsame)]
        exact ⟨l, hl, rfl⟩

theorem exists_of_length_ordersAt_pos (hash : String → Int) {orders : List (Int × Order)}
    {k : Int} {isBid : Bool} {p : ℚ}
    (h : (ordersAt hash orders k isBid p).length ≠ 0) :
    ∃ e ∈ orders, Order.restsAt hash k isBid p e.2 = true := by
  obtain ⟨o, ho⟩ := List.exists_mem_of_length_pos (Nat.pos_of_ne_zero h)
  simp only [ordersAt, List.mem_filter, List.mem_map] at ho
  obtain ⟨⟨e, he, rfl⟩, hr⟩ := ho
  exact ⟨e, he, hr⟩

/-- The invariant after an `add` that the book under the order's key accepts; `b` is that
book before the call (the fresh book when the key is new). -/
theorem OrderBookMgr.inv_add_accepted (hash : String → Int) (m : OrderBookMgr) (order : Order)
    (b : Book) (books2 : List (Int × Book)) (hinv : m.Inv hash) (hb : b.Sorted)
    (hbc : ∀ s, ∀ l ∈ b.side s, l.count = m.countAt hash (hash order.symbol) s l.price)
    (hbl : ∀ e ∈ m.orders, hash e.2.symbol = hash order.symbol →
      ∃ l ∈ b.side (decide (e.2.side = 'B')), l.price = e.2.price)
    (hp : 0 < order.price) (hq : 0 < order.quantity)
    (hkeys : (books2.map Prod.fst).Nodup)
    (hlook : ∀ k1, books2.lookup k1 =
      if k1 = hash order.symbol then
        some (b.add_isBid (decide (order.side = 'B')) order.price order.quantity).2
      else m.books.lookup k1) :
    OrderBookMgr.Inv hash ⟨(order.id, order) :: m.orders, books2⟩ := by
  have hzero : (∀ l ∈ b.side (decide (order.side = 'B')), l.price ≠ order.price) →
      m.countAt hash (hash order.symbol) (decide (order.side = 'B')) order.price = 0 := by
    intro hno
    by_contra hne
    have hne2 : (ordersAt hash m.orders (hash order.symbol) (decide (order.side = 'B'))
        order.price).length ≠ 0 := by
      intro h0
      apply hne
      simp [OrderBookMgr.countAt, h0]
    obtain ⟨e, he, hr⟩ := exists_of_length_ordersAt_pos hash hne2
    obtain ⟨h1, h2, h3⟩ := (Order.restsAt_iff hash _ _ _ _).mp hr
    obtain ⟨l, hl, hlp⟩ := hbl e he h1
    rw [h2] at hl
    exact hno l hl (hlp.trans h3)
  obtain ⟨hcnt, hnew, hkeep⟩ := Book.count_add_isBid (decide (order.side = 'B')) b order.price
    order.quantity (fun s p => m.countAt hash (hash order.symbol) s p) hb hp hq hbc hzero
  apply OrderBookMgr.inv_of_update hash m _ (hash order.symbol)
    (b.add_isBid (decide (order.side = 'B')) order.price order.quantity).2 hinv hkeys hlook
    (Book.sorted_add_isBid _ b _ _ hb)
  · intro isBid l hl
    rw [hcnt isBid l hl]
    simp only [OrderBookMgr.countAt]
    rw [length_ordersAt_cons]
    congr 1
    by_cases hcond : isBid = decide (order.side = 'B') ∧ l.price = order.price
    · have : Order.restsAt hash (hash order.symbol) isBid l.price order = true := by
        rw [Order.restsAt_iff]
        exact ⟨rfl, hcond.1.symm, hcond.2.symm⟩
      rw [if_pos hcond, if_pos this]
    · have : ¬ Order.restsAt hash (hash order.symbol) isBid l.price order = true := by
        rw [Order.restsAt_iff]
        rintro ⟨-, h2, h3⟩
        exact hcond ⟨h2.symm, h3.symm⟩
      rw [if_neg hcond, if_neg this]
  · intro k1 hk1 s p
    simp only [OrderBookMgr.countAt]
    rw [length_ordersAt_cons]
    have : ¬ Order.restsAt hash k1 s p order = true := by
      rw [Order.restsAt_iff]
      rintro ⟨h1, -, -⟩
      exact hk1 h1.symm
    rw [if_neg this]
    simp
  · intro e he
    rcases List.mem_cons.mp he with rfl | hold
    · exact ⟨fun _ => hnew, fun h => absurd rfl h⟩
    · refine ⟨fun h => ?_, fun _ => hold⟩
      obtain ⟨l, hl, hlp⟩ := hbl e hold h
      obtain ⟨l2, hl2, hlp2⟩ := hkeep _ l hl
      exact ⟨l2, hl2, hlp2.trans hlp⟩

/-- The invariant is kept by `OrderBookMgr::add`. -/
theorem OrderBookMgr.inv_add (hash : String → Int) (m : OrderBookMgr) (order : Order)
    (hinv : m.Inv hash) : (m.add hash order).2.Inv hash := by
  unfold OrderBookMgr.add
  by_cases hex : m.orderExist order.id = true
  · simp only [hex, Bool.not_true, Bool.false_eq_true, if_false]
    exact hinv
  · simp only [hex, Bool.not_false, if_true]
    cases hbk : m.books.lookup (hash order.symbol) with
    | none =>
      have hbx : m.bookExist (hash order.symbol) = false := by
        simp [OrderBookMgr.bookExist, hbk]
      simp only [hbx, Bool.not_false, if_true]
      rw [Book.add_eq]
      by_cases hpq : order.price > 0 ∧ order.quantity > 0
      · have h1 : (Book.add_isBid (decide (order.side = 'B')) (Book.new (hash order.symbol))
            order.price order.quantity).1 = true := by
          rw [Book.add_isBid_fst]
          simp [hpq.1, hpq.2]
        simp only [h1, if_true]
        apply OrderBookMgr.inv_add_accepted hash m order (Book.new (hash order.symbol)) _ hinv
          (Book.sorted_new _) _ _ hpq.1 hpq.2
        · simp only [List.map_cons, List.nodup_cons]
          exact ⟨not_mem_keys_of_lookup_none hbk, hinv.1⟩
        · intro k1
          by_cases hk1 : k1 = hash order.symbol
          · simp [List.lookup_cons, hk1]
          · have h3 : (k1 == hash order.symbol) = false := by simpa using hk1
            simp only [List.lookup_cons, h3, hk1, if_false]
        · intro s l hl
          cases s <;> cases hl
        · intro e he heq
          obtain ⟨b1, hb1, -⟩ := hinv.2.2 e he
          rw [heq, hbk] at hb1
          cases hb1
      · rw [Book.add_isBid_of_not _ _ _ _ hpq]
        simp only [Bool.false_eq_true, if_false]
        exact hinv
    | some b =>
      have hbx : m.bookExist (hash order.symbol) = true := by
        simp [OrderBookMgr.bookExist, hbk]
      simp only [hbx, Bool.not_true, Bool.false_eq_true, if_false]
      rw [Book.add_eq]
      by_cases hpq : order.price > 0 ∧ order.quantity > 0
      · have h1 : (Book.add_isBid (decide (order.side = 'B')) b
            order.price order.quantity).1 = true := by
          rw [Book.add_isBid_fst]
          simp [hpq.1, hpq.2]
        simp only [h1, if_true]
        obtain ⟨hbs, hbc⟩ := hinv.2.1 _ b hbk
        apply OrderBookMgr.inv_add_accepted hash m order b _ hinv hbs hbc _ hpq.1 hpq.2
        · rw [keys_setBook]
          exact hinv.1
        · intro k1
          rw [lookup_setBook, hbk]
          rfl
        · intro e he heq
          obtain ⟨b1, hb1, hl1⟩ := hinv.2.2 e he
          rw [heq, hbk] at hb1
          cases hb1
          exact hl1
      · rw [Book.add_isBid_of_not _ _ _ _ hpq]
        simp only [Bool.false_eq_true, if_false]
        rw [setBook_self _ _ _ hbk]
        exact hinv

theorem Book.remove_isBid_of_fail (isBid : Bool) (b : Book) (price : ℚ) (quantity : Int)
    (h : (b.remove_isBid isBid price quantity).1 = false) :
    b.remove_isBid isBid price quantity = (false, b) := by
  unfold Book.remove_isBid at h ⊢
  by_cases hq : b.levelQty isBid price ≠ 0
  · rw [if_pos hq] at h
    exfalso
    revert h
    simp only
    split
    · split_ifs <;> simp
    · simp
  · rw [if_neg hq]

theorem Book.replace_isBid_of_fail (isBid : Bool) (b : Book) (price : ℚ) (quantity : Int)
    (h : (b.replace_isBid isBid price quantity).1 = false) :
    b.replace_isBid isBid price quantity = (false, b) := by
  unfold Book.replace_isBid at h ⊢
  by_cases hq : b.levelQty isBid price ≠ 0
  · rw [if_pos hq] at h
    exfalso
    revert h
    simp only
    split <;> simp
  · rw [if_neg hq]

/-- The counts of the levels of a book after a `remove<isBid>` that succeeds, and the
levels that stay. -/
theorem Book.count_remove_isBid (isBid0 : Bool) (b : Book) (p : ℚ) (q : Int)
    (c : Bool → ℚ → Int) (hs : b.Sorted)
    (hc : ∀ s, ∀ l ∈ b.side s, l.count = c s l.price)
    (hok : (b.remove_isBid isBid0 p q).1 = true) :
    (∀ s, ∀ l ∈ (b.remove_isBid isBid0 p q).2.side s,
      l.count = c s l.price - if s = isBid0 ∧ l.price = p then 1 else 0) ∧
    (∀ s, ∀ l ∈ b.side s, (s = isBid0 ∧ l.price = p → c isBid0 p ≠ 1) →
      ∃ l2 ∈ (b.remove_isBid isBid0 p q).2.side s, l2.price = l.price) := by
  obtain ⟨pre, suf, hsplit, hpre, hcase⟩ :=
    Book.remove_isBid_cases isBid0 b p q ((Book.sorted_iff b).mp hs isBid0)
  have hc0 := hc isBid0
  rw [hsplit] at hc0
  rcases hcase with ⟨s0, tl, rfl, hsp, htl, hres⟩ | ⟨hall, hres⟩
  · rw [hres] at hok ⊢
    by_cases hq0 : s0.quantity ≠ 0
    · rw [if_pos hq0] at hok ⊢
      have hs0c : s0.count = c isBid0 p := by
        rw [← hsp]
        exact hc0 s0 (by simp)
      by_cases hc1 : s0.count = 1
      · rw [if_pos hc1]
        constructor
        · intro s l hl
          by_cases hsame : s = isBid0
          · subst hsame
            simp only [Book.side_setSide, List.mem_append] at hl
            rcases hl with hm | hm
            · have := Book.better_ne (hpre l hm)
              simp [this, hc0 l (by simp [hm])]
            · have := (Book.better_ne (htl l hm)).symm
              simp [this, hc0 l (by simp [hm])]
          · rw [Book.side_setSide_of_ne (Ne.symm hsame)] at hl
            simp [hsame, hc s l hl]
        · intro s l hl hkeep
          by_cases hsame : s = isBid0
          · subst hsame
            rw [hsplit] at hl
            simp only [Book.side_setSide, List.mem_append, List.mem_cons] at hl ⊢
            rcases hl with hm | rfl | hm
            · exact ⟨l, Or.inl hm, rfl⟩
            · exact absurd (hs0c.symm.trans hc1) (hkeep ⟨rfl, hsp⟩)
            · exact ⟨l, Or.inr hm, rfl⟩
          · rw [Book.side_setSide_of_ne (Ne.symm hsame)]
            exact ⟨l, hl, rfl⟩
      · rw [if_neg hc1]
        constructor
        · intro s l hl
          by_cases hsame : s = isBid0
          · subst hsame
            simp only [Book.side_setSide, List.mem_append, List.mem_cons] at hl
            rcases hl with hm | rfl | hm
            · have := Book.better_ne (hpre l hm)
              simp [this, hc0 l (by simp [hm])]
            · simp [hsp, hs0c]
            · have := (Book.better_ne (htl l hm)).symm
              simp [this, hc0 l (by simp [hm])]
          · rw [Book.side_setSide_of_ne (Ne.symm hsame)] at hl
            simp [hsame, hc s l hl]
        · intro s l hl _
          by_cases hsame : s = isBid0
          · subst hsame
            rw [hsplit] at hl
            simp only [Book.side_setSide, List.mem_append, List.mem_cons] at hl ⊢
            rcases hl with hm | rfl | hm
            · exact ⟨l, Or.inl hm, rfl⟩
            · exact ⟨_, Or.inr (Or.inl rfl), rfl⟩
            · exact ⟨l, Or.inr (Or.inr hm), rfl⟩
          · rw [Book.side_setSide_of_ne (Ne.symm hsame)]
            exact ⟨l, hl, rfl⟩
    · rw [if_neg hq0] at hok
      cases hok
  · rw [hres] at hok
    cases hok

/-- The invariant is kept by `OrderBookMgr::remove`. -/
theorem OrderBookMgr.inv_remove (hash : String → Int) (m : OrderBookMgr) (orderId : Int)
    (r : Bool × OrderBookMgr) (hinv : m.Inv hash) (h : m.remove hash orderId = some r) :
    r.2.Inv hash := by
  unfold OrderBookMgr.remove at h
  cases ho : m.orders.lookup orderId with
  | none =>
    rw [ho] at h
    simp only [Option.some.injEq] at h
    subst h
    exact hinv
  | some order =>
    rw [ho] at h
    simp only at h
    cases hbk : m.getBook (hash order.symbol) with
    | none =>
      rw [hbk] at h
      cases h
    | some b =>
      rw [hbk] at h
      simp only at h
      have hbk2 : m.books.lookup (hash order.symbol) = some b := hbk
      obtain ⟨hbs, hbc⟩ := hinv.2.1 _ b hbk2
      rw [Book.remove_eq] at h
      by_cases hok : (b.remove_isBid (decide (order.side = 'B')) order.price order.quantity).1
          = true
      · rw [if_pos hok] at h
        simp only [Option.some.injEq] at h
        subst h
        obtain ⟨hcnt, hkeep⟩ := Book.count_remove_isBid (decide (order.side = 'B')) b order.price
          order.quantity (fun s p => m.countAt hash (hash order.symbol) s p) hbs hbc hok
        have herase := length_ordersAt_erase hash m.orders orderId order ho
        apply OrderBookMgr.inv_of_update hash m _ (hash order.symbol)
          (b.remove_isBid (decide (order.side = 'B')) order.price order.quantity).2 hinv
        · simp only
          rw [keys_setBook]
          exact hinv.1
        · intro k1
          simp only
          rw [lookup_setBook, hbk2]
          rfl
        · exact Book.sorted_remove_isBid _ b _ _ hbs
        · intro isBid l hl
          rw [hcnt isBid l hl]
          simp only [OrderBookMgr.countAt]
          rw [← herase (hash order.symbol) isBid l.price]
          by_cases hcond : isBid = decide (order.side = 'B') ∧ l.price = order.price
          · have : Order.restsAt hash (hash order.symbol) isBid l.price order = true := by
              rw [Order.restsAt_iff]
              exact ⟨rfl, hcond.1.symm, hcond.2.symm⟩
            rw [if_pos hcond, if_pos this]
            ring
          · have : ¬ Order.restsAt hash (hash order.symbol) isBid l.price order = true := by
              rw [Order.restsAt_iff]
              rintro ⟨-, h2, h3⟩
              exact hcond ⟨h2.symm, h3.symm⟩
            rw [if_neg hcond, if_neg this]
            ring
        · intro k1 hk1 s p
          simp only [OrderBookMgr.countAt]
          rw [← herase k1 s p]
          have : ¬ Order.restsAt hash k1 s p order = true := by
            rw [Order.restsAt_iff]
            rintro ⟨h1, -, -⟩
            exact hk1 h1.symm
          rw [if_neg this]
          simp
        · intro e he0
          have he : e ∈ eraseOrder m.orders orderId := he0
          have hold := mem_of_mem_eraseOrder he
          refine ⟨fun heq => ?_, fun _ => hold⟩
          obtain ⟨b1, hb1, l, hl, hlp⟩ := hinv.2.2 e hold
          rw [heq, hbk2] at hb1
          cases hb1
          obtain ⟨l2, hl2, hlp2⟩ := hkeep _ l hl (by
            rintro ⟨h2, h3⟩
            have hr : Order.restsAt hash (hash order.symbol) (decide (order.side = 'B'))
                order.price e.2 = true := by
              rw [Order.restsAt_iff]
              exact ⟨heq, h2, hlp.symm.trans h3⟩
            have hpos := length_ordersAt_pos hash he hr
            have := herase (hash order.symbol) (decide (order.side = 'B')) order.price
            rw [if_pos (Order.restsAt_self hash order)] at this
            simp only [OrderBookMgr.countAt]
            omega)
          exact ⟨l2, hl2, hlp2.trans hlp⟩
      · rw [if_neg hok] at h
        simp only [Option.some.injEq] at h
        subst h
        have hfail : (b.remove_isBid (decide (order.side = 'B')) order.price order.quantity).1
            = false := by simpa using hok
        rw [Book.remove_isBid_of_fail _ _ _ _ hfail]
        simp only
        rw [setBook_self _ _ _ hbk2]
        exact hinv

/-- The method `replace<isBid>` changes no price and no count. -/
theorem Book.count_replace_isBid (isBid0 : Bool) (b : Book) (p : ℚ) (q : Int) (hs : b.Sorted) :
    (∀ s, ∀ l2 ∈ (b.replace_isBid isBid0 p q).2.side s,
      ∃ l ∈ b.side s, l.price = l2.price ∧ l.count = l2.count) ∧
    (∀ s, ∀ l ∈ b.side s, ∃ l2 ∈ (b.replace_isBid isBid0 p q).2.side s, l2.price = l.price) := by
  obtain ⟨pre, suf, hsplit, hpre, hcase⟩ :=
    Book.replace_isBid_cases isBid0 b p q ((Book.sorted_iff b).mp hs isBid0)
  have hsame : b.replace_isBid isBid0 p q = (false, b) →
      (∀ s, ∀ l2 ∈ (b.replace_isBid isBid0 p q).2.side s,
        ∃ l ∈ b.side s, l.price = l2.price ∧ l.count = l2.count) ∧
      (∀ s, ∀ l ∈ b.side s,
        ∃ l2 ∈ (b.replace_isBid isBid0 p q).2.side s, l2.price = l.price) := by
    intro h
    rw [h]
    exact ⟨fun s l2 hl2 => ⟨l2, hl2, rfl, rfl⟩, fun s l hl => ⟨l, hl, rfl⟩⟩
  rcases hcase with ⟨s0, tl, rfl, hsp, htl, -, hres⟩ | ⟨hall, -, hres⟩
  · by_cases hq0 : s0.quantity ≠ 0
    · rw [if_pos hq0] at hres
      rw [hres]
      constructor
      · intro s l2 hl2
        by_cases hsm : s = isBid0
        · subst hsm
          rw [hsplit]
          simp only [Book.side_setSide, List.mem_append, List.mem_cons] at hl2 ⊢
          rcases hl2 with hm | rfl | hm
          · exact ⟨l2, Or.inl hm, rfl, rfl⟩
          · exact ⟨s0, Or.inr (Or.inl rfl), rfl, rfl⟩
          · exact ⟨l2, Or.inr (Or.inr hm), rfl, rfl⟩
        · rw [Book.side_setSide_of_ne (Ne.symm hsm)] at hl2
          exact ⟨l2, hl2, rfl, rfl⟩
      · intro s l hl
        by_cases hsm : s = isBid0
        · subst hsm
          rw [hsplit] at hl
          simp only [Book.side_setSide, List.mem_append, List.mem_cons] at hl ⊢
          rcases hl with hm | rfl | hm
          · exact ⟨l, Or.inl hm, rfl⟩
          · exact ⟨_, Or.inr (Or.inl rfl), rfl⟩
          · exact ⟨l, Or.inr (Or.inr hm), rfl⟩
        · rw [Book.side_setSide_of_ne (Ne.symm hsm)]
          exact ⟨l, hl, rfl⟩
    · rw [if_neg hq0] at hres
      exact hsame hres
  · exact hsame hres

/-- The invariant is kept by `OrderBookMgr::replace`. -/
theorem OrderBookMgr.inv_replace (hash : String → Int) (m : OrderBookMgr) (orderId : Int)
    (quantity : Int) (r : Bool × OrderBookMgr) (hinv : m.Inv hash)
    (h : m.replace hash orderId quantity = some r) : r.2.Inv hash := by
  unfold OrderBookMgr.replace at h
  cases ho : m.orders.lookup orderId with
  | none =>
    rw [ho] at h
    simp only [Option.some.injEq] at h
    subst h
    exact hinv
  | some order =>
    rw [ho] at h
    simp only at h
    cases hbk : m.getBook (hash order.symbol) with
    | none =>
      rw [hbk] at h
      cases h
    | some b =>
      rw [hbk] at h
      simp only [Option.some.injEq] at h
      subst h
      have hbk2 : m.books.lookup (hash order.symbol) = some b := hbk
      obtain ⟨hbs, hbc⟩ := hinv.2.1 _ b hbk2
      simp only
      rw [Book.replace_eq]
      generalize (if order.side = 'B' then Book.levelQty true b order.price
        else Book.levelQty false b order.price) - order.quantity + quantity = newQty
      obtain ⟨hback, hkeep⟩ := Book.count_replace_isBid (decide (order.side = 'B')) b
        order.price newQty hbs
      apply OrderBookMgr.inv_of_update hash m _ (hash order.symbol)
        (b.replace_isBid (decide (order.side = 'B')) order.price newQty).2 hinv
      · simp only
        rw [keys_setBook]
        exact hinv.1
      · intro k1
        simp only
        rw [lookup_setBook, hbk2]
        rfl
      · exact Book.sorted_replace_isBid _ b _ _ hbs
      · intro isBid l2 hl2
        obtain ⟨l, hl, hlp, hlc⟩ := hback isBid l2 hl2
        rw [← hlc, ← hlp]
        exact hbc isBid l hl
      · intro k1 _ s p
        rfl
      · intro e he
        have hold : e ∈ m.orders := he
        refine ⟨fun heq => ?_, fun _ => hold⟩
        obtain ⟨b1, hb1, l, hl, hlp⟩ := hinv.2.2 e hold
        rw [heq, hbk2] at hb1
        cases hb1
        obtain ⟨l2, hl2, hlp2⟩ := hkeep _ l hl
        exact ⟨l2, hl2, hlp2.trans hlp⟩

theorem OrderBookMgr.inv_empty (hash : String → Int) : OrderBookMgr.empty.Inv hash := by
  refine ⟨List.nodup_nil, ?_, ?_⟩
  · intro k b h
    cases h
  · intro e he
    cases he

theorem OrderBookMgr.inv_step (hash : String → Int) (m : OrderBookMgr) (op : MgrOp)
    (r : Bool × OrderBookMgr) (hinv : m.Inv hash) (h : m.step hash op = some r) :
    r.2.Inv hash := by
  cases op with
  | add order =>
    simp only [OrderBookMgr.step, Option.some.injEq] at h
    subst h
    exact OrderBookMgr.inv_add hash m order hinv
  | remove orderId => exact OrderBookMgr.inv_remove hash m orderId r hinv h
  | replace orderId quantity => exact OrderBookMgr.inv_replace hash m orderId quantity r hinv h

theorem OrderBookMgr.inv_run (hash : String → Int) (ops : List MgrOp) :
    ∀ m m2 : OrderBookMgr, m.Inv hash → OrderBookMgr.run hash m ops = some m2 →
      m2.Inv hash := by
  induction ops with
  | nil =>
    intro m m2 hinv h
    simp only [OrderBookMgr.run, Option.some.injEq] at h
    subst h
    exact hinv
  | cons op ops ih =>
    intro m m2 hinv h
    simp only [OrderBookMgr.run] at h
    cases hstep : m.step hash op with
    | none =>
      rw [hstep] at h
      cases h
    | some r =>
      rw [hstep] at h
      exact ih r.2 m2 (OrderBookMgr.inv_step hash m op r hinv hstep) h

theorem OrderBookMgr.inv_of_reachable (hash : String → Int) (m : OrderBookMgr)
    (h : m.Reachable hash) : m.Inv hash := by
  obtain ⟨ops, hops⟩ := h
  exact OrderBookMgr.inv_run hash ops _ m (OrderBookMgr.inv_empty hash) hops

/-- Under the invariant no call dereferences a null book pointer: every call returns. -/
theorem OrderBookMgr.step_defined (hash : String → Int) (m : OrderBookMgr) (op : MgrOp)
    (hinv : m.Inv hash) : ∃ r, m.step hash op = some r := by
  cases op with
  | add order => exact ⟨_, rfl⟩
  | remove orderId =>
    simp only [OrderBookMgr.step, OrderBookMgr.remove]
    cases ho : m.orders.lookup orderId with
    | none => exact ⟨_, rfl⟩
    | some order =>
      obtain ⟨b, hb, -⟩ := hinv.2.2 _ (mem_of_lookup ho)
      simp only [OrderBookMgr.getBook, hb]
      split_ifs <;> exact ⟨_, rfl⟩
  | replace orderId quantity =>
    simp only [OrderBookMgr.step, OrderBookMgr.replace]
    cases ho : m.orders.lookup orderId with
    | none => exact ⟨_, rfl⟩
    | some order =>
      obtain ⟨b, hb, -⟩ := hinv.2.2 _ (mem_of_lookup ho)
      simp only [OrderBookMgr.getBook, hb]
      exact ⟨_, rfl⟩

/-- Every sequence of calls on the default-constructed manager runs to its end. -/
theorem OrderBookMgr.run_defined (hash : String → Int) (ops : List MgrOp) :
    ∀ m : OrderBookMgr, m.Inv hash → ∃ m2, OrderBookMgr.run hash m ops = some m2 := by
  induction ops with
  | nil => intro m _; exact ⟨m, rfl⟩
  | cons op ops ih =>
    intro m hinv
    obtain ⟨r, hr⟩ := OrderBookMgr.step_defined hash m op hinv
    obtain ⟨m2, hm2⟩ := ih r.2 (OrderBookMgr.inv_step hash m op r hinv hr)
    exact ⟨m2, by simp only [OrderBookMgr.run, hr, hm2]⟩

/-- C3. Count invariant of `OrderBookMgr`: in every state reachable from the empty manager,
each level of each side of each book has as its count the number of tracked orders whose
symbol maps to the book, whose side selects the side and whose price is the level's; and
every tracked order has a book under its symbol's key with a level at its price on its
side. -/
theorem OrderBookMgr.count_invariant (hash : String → Int) (m : OrderBookMgr)
    (hr : m.Reachable hash) :
    (∀ e ∈ m.books, ∀ isBid, ∀ l ∈ e.2.side isBid,
      l.count = m.countAt hash e.1 isBid l.price) ∧
    (∀ e ∈ m.orders, ∃ b, m.getBook (hash e.2.symbol) = some b ∧
      ∃ l ∈ b.side (decide (e.2.side = 'B')), l.price = e.2.price) := by
  obtain ⟨hkeys, hbooks, hconv⟩ := OrderBookMgr.inv_of_reachable hash m hr
  refine ⟨?_, hconv⟩
  intro e he
  exact (hbooks e.1 e.2 (lookup_of_mem_books hkeys he)).2

/-- C3 on a reachable state: after two bids at price 5 and an offer at 7 on one symbol,
the counts of the levels are the numbers of tracked orders there. -/
theorem OrderBookMgr.count_invariant_witness :
    OrderBookMgr.Reachable (fun s => s.length)
      ⟨[(3, ⟨3, 'S', 7, 4, "X"⟩), (2, ⟨2, 'B', 5, 20, "X"⟩), (1, ⟨1, 'B', 5, 10, "X"⟩)],
       [(1, ⟨1, [⟨5, 30, 2⟩], [⟨7, 4, 1⟩]⟩)]⟩ ∧
    (∀ e ∈ [((1 : Int), (⟨1, [⟨5, 30, 2⟩], [⟨7, 4, 1⟩]⟩ : Book))], ∀ isBid,
      ∀ l ∈ e.2.side isBid,
        l.count = OrderBookMgr.countAt (fun s => s.length)
          ⟨[(3, ⟨3, 'S', 7, 4, "X"⟩), (2, ⟨2, 'B', 5, 20, "X"⟩), (1, ⟨1, 'B', 5, 10, "X"⟩)],
           [(1, ⟨1, [⟨5, 30, 2⟩], [⟨7, 4, 1⟩]⟩)]⟩ e.1 isBid l.price) :=
  ⟨⟨[.add ⟨1, 'B', 5, 10, "X"⟩, .add ⟨2, 'B', 5, 20, "X"⟩, .add ⟨3, 'S', 7, 4, "X"⟩], by decide⟩,
   (OrderBookMgr.count_invariant (fun s => s.length)
      ⟨[(3, ⟨3, 'S', 7, 4, "X"⟩), (2, ⟨2, 'B', 5, 20, "X"⟩), (1, ⟨1, 'B', 5, 10, "X"⟩)],
       [(1, ⟨1, [⟨5, 30, 2⟩], [⟨7, 4, 1⟩]⟩)]⟩
      ⟨[.add ⟨1, 'B', 5, 10, "X"⟩, .add ⟨2, 'B', 5, 20, "X"⟩, .add ⟨3, 'S', 7, 4, "X"⟩],
        by decide⟩).1⟩

/-! ## `Book::replace` and `Book::levelQty` -/

/-- C11. Effect of `Book::replace`: on a sorted side, a call that returns success found the
level at `price`, which splits the side, and afterwards that level holds exactly
`newQuantity` with its price and count as before, every other level stands where it
stood, and the other side is unchanged; a call that returns failure leaves the whole book
unchanged. -/
theorem Book.replace_effect (b : Book) (side : Char) (price : ℚ) (newQuantity : Int)
    (hs : Book.SortedSide (decide (side = 'B')) (b.side (decide (side = 'B')))) :
    ((b.replace side price newQuantity).1 = true →
      (∃ pre s tl, b.side (decide (side = 'B')) = pre ++ s :: tl ∧ s.price = price ∧
        (b.replace side price newQuantity).2.side (decide (side = 'B')) =
          pre ++ { price := s.price, quantity := newQuantity, count := s.count } :: tl) ∧
      (b.replace side price newQuantity).2.side (!decide (side = 'B')) =
        b.side (!decide (side = 'B'))) ∧
    ((b.replace side price newQuantity).1 = false →
      (b.replace side price newQuantity).2 = b) := by
  rw [Book.replace_eq]
  generalize decide (side = 'B') = isBid at *
  constructor
  · intro hok
    obtain ⟨pre, suf, hsplit, hpre, hcase⟩ :=
      Book.replace_isBid_cases isBid b price newQuantity hs
    rcases hcase with ⟨s, tl, rfl, hsp, htl, -, hres⟩ | ⟨hall, -, hres⟩
    · rw [hres] at hok ⊢
      by_cases hq0 : s.quantity ≠ 0
      · rw [if_pos hq0]
        exact ⟨⟨pre, s, tl, hsplit, hsp, by simp⟩, by simp⟩
      · rw [if_neg hq0] at hok
        cases hok
    · rw [hres] at hok
      cases hok
  · intro hfail
    rw [Book.replace_isBid_of_fail isBid b price newQuantity hfail]

/-- C11 on a small book: replacing the quantity of the bid level `{5, 10, 2}` by 7 gives
`{5, 7, 2}` between its neighbours, and a replace at a price without level changes
nothing. -/
theorem Book.replace_effect_witness :
    ((⟨0, [⟨6, 1, 1⟩, ⟨5, 10, 2⟩, ⟨4, 3, 1⟩], [⟨7, 4, 1⟩]⟩ : Book).replace 'B' 5 7).2 =
      ⟨0, [⟨6, 1, 1⟩, ⟨5, 7, 2⟩, ⟨4, 3, 1⟩], [⟨7, 4, 1⟩]⟩ ∧
    ((⟨0, [⟨6, 1, 1⟩, ⟨5, 10, 2⟩, ⟨4, 3, 1⟩], [⟨7, 4, 1⟩]⟩ : Book).replace 'B' 9 7).2 =
      ⟨0, [⟨6, 1, 1⟩, ⟨5, 10, 2⟩, ⟨4, 3, 1⟩], [⟨7, 4, 1⟩]⟩ :=
  ⟨by decide,
    (Book.replace_effect ⟨0, [⟨6, 1, 1⟩, ⟨5, 10, 2⟩, ⟨4, 3, 1⟩], [⟨7, 4, 1⟩]⟩ 'B' 9 7
      (by decide)).2 (by decide)⟩

/-- C12. The lookup `levelQty` is a correct point lookup: on a sorted side it returns the
quantity of the level whose price is `price` when the side has one, and 0 when the side
has none, so the ordered search never misses a level. -/
theorem Book.levelQty_lookup (isBid : Bool) (b : Book) (price : ℚ)
    (hs : Book.SortedSide isBid (b.side isBid)) :
    (∀ l ∈ b.side isBid, l.price = price → b.levelQty isBid price = l.quantity) ∧
    ((∀ l ∈ b.side isBid, l.price ≠ price) → b.levelQty isBid price = 0) := by
  obtain ⟨pre, suf, hsplit, -, hpre, hcase⟩ := Book.levelQty_cases isBid b price hs
  rcases hcase with ⟨s, tl, rfl, hsp, htl, hq⟩ | ⟨hall, hq⟩
  · constructor
    · intro l hl hlp
      rw [hsplit] at hl
      obtain ⟨i, hi⟩ := List.mem_iff_getElem?.mp hl
      obtain ⟨-, rfl⟩ := index_of_price (fun a ha => Book.better_ne (hpre a ha))
        (fun a ha => (Book.better_ne (htl a ha)).symm) hi hlp
      exact hq
    · intro hno
      exact absurd hsp (hno s (by rw [hsplit]; simp))
  · constructor
    · intro l hl hlp
      exfalso
      rw [hsplit] at hl
      rcases List.mem_append.mp hl with hm | hm
      · exact Book.better_ne (hpre l hm) hlp
      · exact Book.better_ne (hall l hm) hlp.symm
    · intro _
      exact hq

/-- C12 on the test's book: among the offers at 86.6 to 87.0 the lookup at 86.8 returns
that level's quantity. -/
theorem Book.levelQty_lookup_witness :
    Book.levelQty false
      ⟨0, [], [⟨86.6, 8000, 1⟩, ⟨86.72, 10000, 1⟩, ⟨86.8, 12000, 1⟩, ⟨86.9, 10000, 1⟩,
        ⟨87.0, 10000, 1⟩]⟩ 86.8 = 12000 :=
  (Book.levelQty_lookup false
    ⟨0, [], [⟨86.6, 8000, 1⟩, ⟨86.72, 10000, 1⟩, ⟨86.8, 12000, 1⟩, ⟨86.9, 10000, 1⟩,
      ⟨87.0, 10000, 1⟩]⟩ 86.8
    (by norm_num [Book.SortedSide, Book.better, Book.side])).1 ⟨86.8, 12000, 1⟩
    (by simp [Book.side]) rfl

/-! ## No level without orders -/

theorem Book.counts_add_isBid (isBid0 : Bool) (b : Book) (p : ℚ) (q : Int) (hs : b.Sorted)
    (hc : ∀ s, ∀ l ∈ b.side s, 1 ≤ l.count) :
    ∀ s, ∀ l ∈ (b.add_isBid isBid0 p q).2.side s, 1 ≤ l.count := by
  by_cases hpq : p > 0 ∧ q > 0
  · obtain ⟨pre, suf, hsplit, -, hcase⟩ :=
      Book.add_isBid_cases isBid0 b p q ((Book.sorted_iff b).mp hs isBid0) hpq.1 hpq.2
    have hc0 := hc isBid0
    rw [hsplit] at hc0
    intro s l hl
    by_cases hsame : s = isBid0
    · subst hsame
      rcases hcase with ⟨s0, tl, rfl, -, -, hres⟩ | ⟨-, hres⟩
      · rw [hres] at hl
        simp only [Book.side_setSide, List.mem_append, List.mem_cons] at hl
        rcases hl with hm | rfl | hm
        · exact hc0 l (by simp [hm])
        · have := hc0 s0 (by simp)
          simp only
          omega
        · exact hc0 l (by simp [hm])
      · rw [hres] at hl
        simp only [Book.side_setSide, List.mem_append, List.mem_cons] at hl
        rcases hl with hm | rfl | hm
        · exact hc0 l (by simp [hm])
        · exact le_refl 1
        · exact hc0 l (by simp [hm])
    · rcases hcase with ⟨s0, tl, rfl, -, -, hres⟩ | ⟨-, hres⟩ <;>
      · rw [hres, Book.side_setSide_of_ne (Ne.symm hsame)] at hl
        exact hc s l hl
  · rw [Book.add_isBid_of_not _ _ _ _ hpq]
    exact hc

theorem Book.counts_remove_isBid (isBid0 : Bool) (b : Book) (p : ℚ) (q : Int) (hs : b.Sorted)
    (hc : ∀ s, ∀ l ∈ b.side s, 1 ≤ l.count) :
    ∀ s, ∀ l ∈ (b.remove_isBid isBid0 p q).2.side s, 1 ≤ l.count := by
  obtain ⟨pre, suf, hsplit, -, hcase⟩ :=
    Book.remove_isBid_cases isBid0 b p q ((Book.sorted_iff b).mp hs isBid0)
  have hc0 := hc isBid0
  rw [hsplit] at hc0
  rcases hcase with ⟨s0, tl, rfl, -, -, hres⟩ | ⟨-, hres⟩
  · rw [hres]
    by_cases hq0 : s0.quantity ≠ 0
    · rw [if_pos hq0]
      by_cases hc1 : s0.count = 1
      · rw [if_pos hc1]
        intro s l hl
        by_cases hsame : s = isBid0
        · subst hsame
          simp only [Book.side_setSide, List.mem_append] at hl
          rcases hl with hm | hm
          · exact hc0 l (by simp [hm])
          · exact hc0 l (by simp [hm])
        · rw [Book.side_setSide_of_ne (Ne.symm hsame)] at hl
          exact hc s l hl
      · rw [if_neg hc1]
        intro s l hl
        by_cases hsame : s = isBid0
        · subst hsame
          simp only [Book.side_setSide, List.mem_append, List.mem_cons] at hl
          rcases hl with hm | rfl | hm
          · exact hc0 l (by simp [hm])
          · have := hc0 s0 (by simp)
            simp only
            omega
          · exact hc0 l (by simp [hm])
        · rw [Book.side_setSide_of_ne (Ne.symm hsame)] at hl
          exact hc s l hl
    · rw [if_neg hq0]
      exact hc
  · rw [hres]
    exact hc

theorem Book.counts_replace_isBid (isBid0 : Bool) (b : Book) (p : ℚ) (q : Int) (hs : b.Sorted)
    (hc : ∀ s, ∀ l ∈ b.side s, 1 ≤ l.count) :
    ∀ s, ∀ l ∈ (b.replace_isBid isBid0 p q).2.side s, 1 ≤ l.count := by
  intro s l2 hl2
  obtain ⟨l, hl, -, hlc⟩ := (Book.count_replace_isBid isBid0 b p q hs).1 s l2 hl2
  rw [← hlc]
  exact hc s l hl

theorem Book.counts_step (b : Book) (op : BookOp) (hs : b.Sorted)
    (hc : ∀ s, ∀ l ∈ b.side s, 1 ≤ l.count) :
    ∀ s, ∀ l ∈ (b.step op).2.side s, 1 ≤ l.count := by
  cases op with
  | add side price quantity =>
    simp only [Book.step, Book.add_eq]
    exact Book.counts_add_isBid _ b price quantity hs hc
  | remove side price quantity =>
    simp only [Book.step, Book.remove_eq]
    exact Book.counts_remove_isBid _ b price quantity hs hc
  | replace side price quantity =>
    simp only [Book.step, Book.replace_eq]
    exact Book.counts_replace_isBid _ b price quantity hs hc

theorem Book.counts_run (ops : List BookOp) :
    ∀ b : Book, b.Sorted → (∀ s, ∀ l ∈ b.side s, 1 ≤ l.count) →
      ∀ s, ∀ l ∈ (b.run ops).side s, 1 ≤ l.count := by
  induction ops with
  | nil => intro b _ hc; exact hc
  | cons op ops ih =>
    intro b hs hc
    exact ih _ (Book.sorted_step b op hs) (Book.counts_step b op hs hc)

/-- C18. No empty level is ever stored: after any sequence of `add` / `remove` / `replace`
calls on an empty book, with any arguments, every level of the bids and of the offers
has a count of at least 1. -/
theorem Book.no_empty_level (id : Int) (ops : List BookOp) :
    (∀ l ∈ ((Book.new id).run ops).bids, 1 ≤ l.count) ∧
    (∀ l ∈ ((Book.new id).run ops).offers, 1 ≤ l.count) := by
  have h := Book.counts_run ops (Book.new id) (Book.sorted_new id)
    (by intro s l hl; cases s <;> cases hl)
  exact ⟨h true, h false⟩

/-! ## `OrderBookMgr::add` -/

/-- C13. Duplicate order ids are rejected without effect: when the order's id is already
tracked, `add` returns failure and the manager is what it was: the same order records,
the same books and the same levels, whatever the terms of the second order. -/
theorem OrderBookMgr.add_duplicate (hash : String → Int) (m : OrderBookMgr) (order : Order)
    (h : m.orderExist order.id = true) : m.add hash order = (false, m) := by
  simp only [OrderBookMgr.add, h, Bool.not_true, Bool.false_eq_true, if_false]

/-- C13 on a small manager: a second order under the tracked id 1, with other terms, is
refused and nothing changes. -/
theorem OrderBookMgr.add_duplicate_witness :
    OrderBookMgr.add (fun s => s.length)
        ⟨[(1, ⟨1, 'B', 5, 10, "X"⟩)], [(1, ⟨1, [⟨5, 10, 1⟩], []⟩)]⟩ ⟨1, 'S', 9, 3, "YY"⟩ =
      (false, ⟨[(1, ⟨1, 'B', 5, 10, "X"⟩)], [(1, ⟨1, [⟨5, 10, 1⟩], []⟩)]⟩) :=
  OrderBookMgr.add_duplicate (fun s => s.length)
    ⟨[(1, ⟨1, 'B', 5, 10, "X"⟩)], [(1, ⟨1, [⟨5, 10, 1⟩], []⟩)]⟩ ⟨1, 'S', 9, 3, "YY"⟩
    (by decide)

/-- What `add` does with an untracked id and terms the book accepts. -/
theorem OrderBookMgr.add_accepted (hash : String → Int) (m : OrderBookMgr) (order : Order)
    (hnew : m.orderExist order.id = false) (hp : 0 < order.price) (hq : 0 < order.quantity) :
    m.add hash order =
      (true, { orders := (order.id, order) :: m.orders,
               books :=
                match m.books.lookup (hash order.symbol) with
                | some b =>
                  setBook m.books (hash order.symbol)
                    (b.add_isBid (decide (order.side = 'B')) order.price order.quantity).2
                | none =>
                  (hash order.symbol,
                    ((Book.new (hash order.symbol)).add_isBid (decide (order.side = 'B'))
                      order.price order.quantity).2) :: m.books }) := by
  have hfst : ∀ b : Book, (b.add_isBid (decide (order.side = 'B')) order.price
      order.quantity).1 = true := by
    intro b
    rw [Book.add_isBid_fst]
    simp [hp, hq]
  unfold OrderBookMgr.add
  simp only [hnew, Bool.not_false, if_true]
  cases hbk : m.books.lookup (hash order.symbol) with
  | none =>
    have hbx : m.bookExist (hash order.symbol) = false := by
      simp [OrderBookMgr.bookExist, hbk]
    simp only [hbx, Bool.not_false, if_true, Book.add_eq, hfst]
  | some b =>
    have hbx : m.bookExist (hash order.symbol) = true := by
      simp [OrderBookMgr.bookExist, hbk]
    simp only [hbx, Bool.not_true, Bool.false_eq_true, if_false, Book.add_eq, hfst, if_true]

/-- What `add` does with terms the book rejects: nothing. -/
theorem OrderBookMgr.add_rejected (hash : String → Int) (m : OrderBookMgr) (order : Order)
    (hpq : ¬ (order.price > 0 ∧ order.quantity > 0)) : m.add hash order = (false, m) := by
  unfold OrderBookMgr.add
  by_cases hex : m.orderExist order.id = true
  · simp only [hex, Bool.not_true, Bool.false_eq_true, if_false]
  · simp only [hex, Bool.not_false, if_true]
    cases hbk : m.books.lookup (hash order.symbol) with
    | none =>
      have hbx : m.bookExist (hash order.symbol) = false := by
        simp [OrderBookMgr.bookExist, hbk]
      simp only [hbx, Bool.not_false, if_true, Book.add_eq,
        Book.add_isBid_of_not _ _ _ _ hpq, Bool.false_eq_true, if_false]
    | some b =>
      have hbx : m.bookExist (hash order.symbol) = true := by
        simp [OrderBookMgr.bookExist, hbk]
      simp only [hbx, Bool.not_true, Bool.false_eq_true, if_false, Book.add_eq,
        Book.add_isBid_of_not _ _ _ _ hpq, setBook_self _ _ _ hbk]

/-- C14. `OrderBookMgr::add` commits nothing when the book rejects the terms: for an
untracked id with `price <= 0` or `quantity <= 0` it returns failure and the manager is
what it was (no order record, no new book, every book as before); for an untracked id
with `price > 0` and `quantity > 0` it returns success, and afterwards the order is stored
under its id and a book exists under its symbol's key. -/
theorem OrderBookMgr.add_commits (hash : String → Int) (m : OrderBookMgr) (order : Order)
    (hnew : m.orderExist order.id = false) :
    ((order.price ≤ 0 ∨ order.quantity ≤ 0) → m.add hash order = (false, m)) ∧
    ((0 < order.price ∧ 0 < order.quantity) →
      (m.add hash order).1 = true ∧
      (m.add hash order).2.orders.lookup order.id = some order ∧
      (m.add hash order).2.orderExist order.id = true ∧
      (m.add hash order).2.bookExist (hash order.symbol) = true) := by
  constructor
  · intro hbad
    apply OrderBookMgr.add_rejected
    rintro ⟨h1, h2⟩
    rcases hbad with h | h
    · exact absurd h1 (not_lt.mpr h)
    · exact absurd h2 (not_lt.mpr h)
  · rintro ⟨hp, hq⟩
    rw [OrderBookMgr.add_accepted hash m order hnew hp hq]
    refine ⟨rfl, by simp [List.lookup_cons], by simp [OrderBookMgr.orderExist, List.lookup_cons],
      ?_⟩
    simp only [OrderBookMgr.bookExist]
    cases hbk : m.books.lookup (hash order.symbol) with
    | none => simp [List.lookup_cons]
    | some b => simp [lookup_setBook, hbk]

/-- C14 on the test's first call: on the empty manager the bid 111 at 86.5 is accepted,
stored and gets its book; with quantity 0 it would be refused and leave the manager
empty. -/
theorem OrderBookMgr.add_commits_witness :
    ((OrderBookMgr.add (fun s => s.length) OrderBookMgr.empty
        ⟨111, 'B', 86.5, 10000, "test.hk"⟩).1 = true ∧
      (OrderBookMgr.add (fun s => s.length) OrderBookMgr.empty
        ⟨111, 'B', 86.5, 10000, "test.hk"⟩).2.orderExist 111 = true) ∧
    OrderBookMgr.add (fun s => s.length) OrderBookMgr.empty ⟨111, 'B', 86.5, 0, "test.hk"⟩ =
      (false, OrderBookMgr.empty) :=
  ⟨⟨((OrderBookMgr.add_commits (fun s => s.length) OrderBookMgr.empty
        ⟨111, 'B', 86.5, 10000, "test.hk"⟩ rfl).2 ⟨by norm_num, by norm_num⟩).1,
    ((OrderBookMgr.add_commits (fun s => s.length) OrderBookMgr.empty
        ⟨111, 'B', 86.5, 10000, "test.hk"⟩ rfl).2 ⟨by norm_num, by norm_num⟩).2.2.1⟩,
   (OrderBookMgr.add_commits (fun s => s.length) OrderBookMgr.empty
      ⟨111, 'B', 86.5, 0, "test.hk"⟩ rfl).1 (Or.inr (le_refl 0))⟩

/-! ## `OrderBookMgr::remove` -/

theorem lookup_eraseOrder_of_ne (orders : List (Int × Order)) (orderId id2 : Int)
    (h : id2 ≠ orderId) : (eraseOrder orders orderId).lookup id2 = orders.lookup id2 := by
  induction orders with
  | nil => rfl
  | cons e rest ih =>
    obtain ⟨k1, o1⟩ := e
    by_cases h1 : k1 = orderId
    · subst h1
      have h3 : (id2 == k1) = false := by simpa using h
      simp only [eraseOrder, if_true, List.lookup_cons, h3]
    · simp only [eraseOrder, h1, if_false, List.lookup_cons, ih]

theorem keys_eraseOrder_sublist (orders : List (Int × Order)) (orderId : Int) :
    ((eraseOrder orders orderId).map Prod.fst).Sublist (orders.map Prod.fst) := by
  induction orders with
  | nil => exact List.Sublist.refl _
  | cons e rest ih =>
    obtain ⟨k1, o1⟩ := e
    by_cases h1 : k1 = orderId
    · simp only [eraseOrder, h1, if_true, List.map_cons]
      exact List.sublist_cons_self _ _
    · simp only [eraseOrder, h1, if_false, List.map_cons]
      exact List.Sublist.cons₂ _ ih

theorem lookup_eq_none_of_not_mem_keys {β : Type} {xs : List (Int × β)} {k : Int}
    (h : k ∉ xs.map Prod.fst) : xs.lookup k = none := by
  induction xs with
  | nil => rfl
  | cons e rest ih =>
    obtain ⟨k1, v1⟩ := e
    simp only [List.map_cons, List.mem_cons, not_or] at h
    have h3 : (k == k1) = false := by simpa using h.1
    simp only [List.lookup_cons, h3]
    exact ih h.2

theorem lookup_eraseOrder_self (orders : List (Int × Order)) (orderId : Int)
    (hn : (orders.map Prod.fst).Nodup) : (eraseOrder orders orderId).lookup orderId = none := by
  induction orders with
  | nil => rfl
  | cons e rest ih =>
    obtain ⟨k1, o1⟩ := e
    simp only [List.map_cons, List.nodup_cons] at hn
    by_cases h1 : k1 = orderId
    · subst h1
      simp only [eraseOrder, if_true]
      exact lookup_eq_none_of_not_mem_keys hn.1
    · have h3 : (orderId == k1) = false := by simpa using Ne.symm h1
      simp only [eraseOrder, h1, if_false, List.lookup_cons, h3]
      exact ih hn.2

theorem length_eraseOrder (orders : List (Int × Order)) (orderId : Int) (o : Order)
    (h : orders.lookup orderId = some o) :
    (eraseOrder orders orderId).length + 1 = orders.length := by
  induction orders with
  | nil => cases h
  | cons e rest ih =>
    obtain ⟨k1, o1⟩ := e
    by_cases h1 : k1 = orderId
    · simp [eraseOrder, h1]
    · have h3 : (orderId == k1) = false := by simpa using Ne.symm h1
      simp only [List.lookup_cons, h3] at h
      simp only [eraseOrder, h1, if_false, List.length_cons]
      rw [ih h]

/-- What `remove` returns for a tracked order whose book exists. -/
theorem OrderBookMgr.remove_tracked (hash : String → Int) (m : OrderBookMgr) (orderId : Int)
    (order : Order) (b : Book) (ho : m.orders.lookup orderId = some order)
    (hb : m.books.lookup (hash order.symbol) = some b) :
    m.remove hash orderId =
      if (b.remove_isBid (decide (order.side = 'B')) order.price order.quantity).1 = true then
        some (true, { orders := eraseOrder m.orders orderId,
                      books := setBook m.books (hash order.symbol)
                        (b.remove_isBid (decide (order.side = 'B')) order.price
                          order.quantity).2 })
      else some (false, m) := by
  unfold OrderBookMgr.remove
  simp only [ho, OrderBookMgr.getBook, hb, Book.remove_eq]
  by_cases hok : (b.remove_isBid (decide (order.side = 'B')) order.price order.quantity).1 = true
  · simp only [hok, if_true]
  · have hfail : (b.remove_isBid (decide (order.side = 'B')) order.price order.quantity).1
        = false := by simpa using hok
    simp only [hok, if_false, Bool.false_eq_true]
    rw [Book.remove_isBid_of_fail _ _ _ _ hfail]
    simp only [setBook_self _ _ _ hb]

/-- The `orders` map after `remove`: the entry is erased on success, nothing changes on
failure. -/
theorem OrderBookMgr.remove_orders (hash : String → Int) (m : OrderBookMgr) (orderId : Int)
    (r : Bool × OrderBookMgr) (h : m.remove hash orderId = some r) :
    r.2.orders = if r.1 = true then eraseOrder m.orders orderId else m.orders := by
  unfold OrderBookMgr.remove at h
  cases ho : m.orders.lookup orderId with
  | none =>
    rw [ho] at h
    simp only [Option.some.injEq] at h
    subst h
    simp
  | some order =>
    rw [ho] at h
    simp only at h
    cases hbk : m.getBook (hash order.symbol) with
    | none =>
      rw [hbk] at h
      cases h
    | some b =>
      rw [hbk] at h
      simp only at h
      split_ifs at h
      · simp only [Option.some.injEq] at h
        subst h
        simp
      · simp only [Option.some.injEq] at h
        subst h
        simp

/-- C15. Contract of `OrderBookMgr::remove` (the `orders` map has one entry per id):
for an untracked id it returns failure and leaves the manager as it was; when it returns
success the id is no longer tracked, one order fewer is tracked and every other record
is as before; when it returns failure on a tracked id the order records are as before. -/
theorem OrderBookMgr.remove_contract (hash : String → Int) (m : OrderBookMgr) (orderId : Int)
    (hn : (m.orders.map Prod.fst).Nodup) :
    (m.orderExist orderId = false → m.remove hash orderId = some (false, m)) ∧
    (∀ m2, m.remove hash orderId = some (true, m2) →
      m2.orderExist orderId = false ∧ m2.orderSize + 1 = m.orderSize ∧
      ∀ id2, id2 ≠ orderId → m2.orders.lookup id2 = m.orders.lookup id2) ∧
    (∀ m2, m.orderExist orderId = true → m.remove hash orderId = some (false, m2) →
      m2.orders = m.orders) := by
  refine ⟨?_, ?_, ?_⟩
  · intro hno
    have : m.orders.lookup orderId = none := by
      simpa [OrderBookMgr.orderExist] using hno
    simp only [OrderBookMgr.remove, this]
  · intro m2 h
    have ho := OrderBookMgr.remove_orders hash m orderId _ h
    simp only [if_true] at ho
    have htracked : ∃ o, m.orders.lookup orderId = some o := by
      cases hl : m.orders.lookup orderId with
      | none =>
        simp only [OrderBookMgr.remove, hl, Option.some.injEq, Prod.mk.injEq] at h
        exact absurd h.1 (by decide)
      | some o => exact ⟨o, rfl⟩
    obtain ⟨o, hl⟩ := htracked
    refine ⟨?_, ?_, ?_⟩
    · simp only [OrderBookMgr.orderExist, ho, lookup_eraseOrder_self _ _ hn, Option.isSome_none]
    · simp only [OrderBookMgr.orderSize, ho]
      have := length_eraseOrder m.orders orderId o hl
      omega
    · intro id2 hne
      rw [ho]
      exact lookup_eraseOrder_of_ne _ _ _ hne
  · intro m2 _ h
    have ho := OrderBookMgr.remove_orders hash m orderId _ h
    simpa using ho

/-- C15 on small managers: removing the tracked order 1 succeeds and leaves order 2 alone;
removing the unknown id 9 fails and changes nothing. -/
theorem OrderBookMgr.remove_contract_witness :
    OrderBookMgr.remove (fun s => s.length)
        ⟨[(2, ⟨2, 'B', 5, 20, "X"⟩), (1, ⟨1, 'B', 5, 10, "X"⟩)], [(1, ⟨1, [⟨5, 30, 2⟩], []⟩)]⟩
        9 =
      some (false,
        ⟨[(2, ⟨2, 'B', 5, 20, "X"⟩), (1, ⟨1, 'B', 5, 10, "X"⟩)],
         [(1, ⟨1, [⟨5, 30, 2⟩], []⟩)]⟩) ∧
    OrderBookMgr.remove (fun s => s.length)
        ⟨[(2, ⟨2, 'B', 5, 20, "X"⟩), (1, ⟨1, 'B', 5, 10, "X"⟩)], [(1, ⟨1, [⟨5, 30, 2⟩], []⟩)]⟩
        1 =
      some (true, ⟨[(2, ⟨2, 'B', 5, 20, "X"⟩)], [(1, ⟨1, [⟨5, 20, 1⟩], []⟩)]⟩) :=
  ⟨(OrderBookMgr.remove_contract (fun s => s.length)
      ⟨[(2, ⟨2, 'B', 5, 20, "X"⟩), (1, ⟨1, 'B', 5, 10, "X"⟩)], [(1, ⟨1, [⟨5, 30, 2⟩], []⟩)]⟩
      9 (by decide)).1 (by decide),
   by decide⟩

/-! ## Adding an order and removing it again -/

@[simp] theorem Book.setSide_setSide (isBid : Bool) (b : Book) (x y : List Book.Level) :
    (b.setSide isBid x).setSide isBid y = b.setSide isBid y := by
  cases isBid <;> rfl

theorem setBook_setBook (books : List (Int × Book)) (k : Int) (b1 b2 : Book) :
    setBook (setBook books k b1) k b2 = setBook books k b2 := by
  induction books with
  | nil => rfl
  | cons e rest ih =>
    obtain ⟨k1, b0⟩ := e
    by_cases h1 : k1 = k
    · simp [setBook, h1]
    · simp [setBook, h1, ih]

/-- On a sorted side given as `pre ++ s :: tl` with `s` at `price`, `remove<isBid>` works
on `s`. -/
theorem Book.remove_isBid_at (isBid : Bool) (b : Book) (price : ℚ) (quantity : Int)
    (pre tl : List Book.Level) (s : Book.Level)
    (hs : Book.SortedSide isBid (b.side isBid)) (hsplit : b.side isBid = pre ++ s :: tl)
    (hsp : s.price = price) :
    b.remove_isBid isBid price quantity =
      if s.quantity ≠ 0 then
        if s.count = 1 then (true, b.setSide isBid (pre ++ tl))
        else (true, b.setSide isBid
          (pre ++ { s with quantity := s.quantity - quantity, count := s.count - 1 } :: tl))
      else (false, b) := by
  obtain ⟨pre2, suf2, hsplit2, hpre2, hcase⟩ := Book.remove_isBid_cases isBid b price quantity hs
  have hget : (b.side isBid)[pre.length]? = some s := by
    rw [hsplit, getElem?_length_append]
    rfl
  rcases hcase with ⟨s2, tl2, rfl, hsp2, htl2, hres⟩ | ⟨hall, -⟩
  · rw [hsplit2] at hget
    obtain ⟨hlen, rfl⟩ := index_of_price (fun a ha => Book.better_ne (hpre2 a ha))
      (fun a ha => (Book.better_ne (htl2 a ha)).symm) hget hsp
    have heq : pre ++ s :: tl = pre2 ++ s :: tl2 := by rw [← hsplit, hsplit2]
    obtain ⟨rfl, h2⟩ := List.append_inj heq hlen
    simp only [List.cons.injEq, true_and] at h2
    subst h2
    exact hres
  · exfalso
    have hmem : s ∈ pre2 ++ suf2 := by
      rw [← hsplit2, hsplit]
      simp
    rcases List.mem_append.mp hmem with hm | hm
    · exact Book.better_ne (hpre2 s hm) hsp
    · exact Book.better_ne (hall s hm) hsp.symm

/-- A level added at a new price of a sorted side is taken out again by `remove<isBid>`
with the same terms, which gives the book back. -/
theorem Book.add_remove_isBid (isBid : Bool) (b : Book) (p : ℚ) (q : Int) (hb : b.Sorted)
    (hno : ∀ l ∈ b.side isBid, l.price ≠ p) (hp : 0 < p) (hq : 0 < q) :
    (b.add_isBid isBid p q).2.remove_isBid isBid p q = (true, b) := by
  obtain ⟨pre, suf, hsplit, hpre, hcase⟩ :=
    Book.add_isBid_cases isBid b p q ((Book.sorted_iff b).mp hb isBid) hp hq
  rcases hcase with ⟨s, tl, rfl, hsp, -, -⟩ | ⟨hall, hres⟩
  · exact absurd hsp (hno s (by rw [hsplit]; simp))
  · have hsorted := (Book.sorted_iff _).mp (Book.sorted_add_isBid isBid b p q hb) isBid
    rw [hres] at hsorted ⊢
    rw [Book.remove_isBid_at isBid _ p q pre suf ⟨p, q, 1⟩ hsorted (by simp) rfl]
    have hq0 : q ≠ 0 := by omega
    simp only [ne_eq, hq0, not_false_eq_true, if_true, Book.setSide_setSide]
    rw [← hsplit, Book.setSide_side]

/-- C16. Add-then-remove round trip: in a reachable state, for an order with an untracked
id, `price > 0`, `quantity > 0` and no level at its price on its side of its symbol's
book, `add` succeeds, the following `remove` of its id succeeds, and afterwards the order
records are as before the `add` (the id is untracked again), the symbol's book is the
book as it was (the empty book when there was none), and every other book is as it
was. -/
theorem OrderBookMgr.add_remove_roundtrip (hash : String → Int) (m : OrderBookMgr)
    (order : Order) (hr : m.Reachable hash) (hnew : m.orderExist order.id = false)
    (hp : 0 < order.price) (hq : 0 < order.quantity)
    (hno : ∀ b, m.getBook (hash order.symbol) = some b →
      ∀ l ∈ b.side (decide (order.side = 'B')), l.price ≠ order.price) :
    (m.add hash order).1 = true ∧
    ∃ m2, (m.add hash order).2.remove hash order.id = some (true, m2) ∧
      m2.orders = m.orders ∧ m2.orderExist order.id = false ∧
      m2.getBook (hash order.symbol) =
        some ((m.getBook (hash order.symbol)).getD (Book.new (hash order.symbol))) ∧
      ∀ k2, k2 ≠ hash order.symbol → m2.getBook k2 = m.getBook k2 := by
  have hinv := OrderBookMgr.inv_of_reachable hash m hr
  rw [OrderBookMgr.add_accepted hash m order hnew hp hq]
  refine ⟨rfl, ?_⟩
  have hlook : ((order.id, order) :: m.orders).lookup order.id = some order := by
    simp [List.lookup_cons]
  have herase : eraseOrder ((order.id, order) :: m.orders) order.id = m.orders := by
    simp [eraseOrder]
  cases hbk : m.books.lookup (hash order.symbol) with
  | none =>
    have hrt := Book.add_remove_isBid (decide (order.side = 'B')) (Book.new (hash order.symbol))
      order.price order.quantity (Book.sorted_new _)
      (by intro l hl; cases hd : decide (order.side = 'B') <;> rw [hd] at hl <;> cases hl) hp hq
    refine ⟨⟨m.orders, (hash order.symbol, Book.new (hash order.symbol)) :: m.books⟩, ?_, rfl,
      hnew, ?_, ?_⟩
    · rw [OrderBookMgr.remove_tracked hash _ order.id order
        ((Book.new (hash order.symbol)).add_isBid (decide (order.side = 'B')) order.price
          order.quantity).2 hlook (by simp [List.lookup_cons])]
      simp only [hrt, if_true, herase]
      simp [setBook]
    · simp [OrderBookMgr.getBook, List.lookup_cons, hbk]
    · intro k2 hk2
      have h3 : (k2 == hash order.symbol) = false := by simpa using hk2
      simp only [OrderBookMgr.getBook, List.lookup_cons, h3]
  | some b =>
    obtain ⟨hbs, -⟩ := hinv.2.1 _ b hbk
    have hrt := Book.add_remove_isBid (decide (order.side = 'B')) b order.price order.quantity
      hbs (hno b hbk) hp hq
    refine ⟨m, ?_, rfl, hnew, ?_, fun _ _ => rfl⟩
    · rw [OrderBookMgr.remove_tracked hash _ order.id order
        (b.add_isBid (decide (order.side = 'B')) order.price order.quantity).2 hlook
        (by simp [lookup_setBook, hbk])]
      simp only [hrt, if_true, herase, setBook_setBook, setBook_self _ _ _ hbk]
    · simp [OrderBookMgr.getBook, hbk]

/-- C16 on a reachable state: with the bid 1 at price 5 tracked, the bid 2 at the new price
6 is added and removed again, and the manager is back where it was. -/
theorem OrderBookMgr.add_remove_roundtrip_witness :
    (OrderBookMgr.add (fun s => s.length)
        ⟨[(1, ⟨1, 'B', 5, 10, "X"⟩)], [(1, ⟨1, [⟨5, 10, 1⟩], []⟩)]⟩
        ⟨2, 'B', 6, 3, "X"⟩).1 = true ∧
    ∃ m2, (OrderBookMgr.add (fun s => s.length)
        ⟨[(1, ⟨1, 'B', 5, 10, "X"⟩)], [(1, ⟨1, [⟨5, 10, 1⟩], []⟩)]⟩
        ⟨2, 'B', 6, 3, "X"⟩).2.remove (fun s => s.length) 2 = some (true, m2) ∧
      m2.orders = [(1, ⟨1, 'B', 5, 10, "X"⟩)] ∧ m2.orderExist 2 = false ∧
      m2.getBook 1 = some ⟨1, [⟨5, 10, 1⟩], []⟩ ∧
      ∀ k2, k2 ≠ 1 → m2.getBook k2 =
        OrderBookMgr.getBook ⟨[(1, ⟨1, 'B', 5, 10, "X"⟩)], [(1, ⟨1, [⟨5, 10, 1⟩], []⟩)]⟩ k2 :=
  OrderBookMgr.add_remove_roundtrip (fun s => s.length)
    ⟨[(1, ⟨1, 'B', 5, 10, "X"⟩)], [(1, ⟨1, [⟨5, 10, 1⟩], []⟩)]⟩ ⟨2, 'B', 6, 3, "X"⟩
    ⟨[.add ⟨1, 'B', 5, 10, "X"⟩], by decide⟩ (by decide) (by norm_num) (by norm_num)
    (by
      intro b hb l hl
      have hb2 : b = ⟨1, [⟨5, 10, 1⟩], []⟩ := by
        have : OrderBookMgr.getBook
            ⟨[(1, ⟨1, 'B', 5, 10, "X"⟩)], [(1, ⟨1, [⟨5, 10, 1⟩], []⟩)]⟩ 1 =
            some ⟨1, [⟨5, 10, 1⟩], []⟩ := by decide
        have hb3 : OrderBookMgr.getBook
            ⟨[(1, ⟨1, 'B', 5, 10, "X"⟩)], [(1, ⟨1, [⟨5, 10, 1⟩], []⟩)]⟩ 1 = some b := hb
        rw [this] at hb3
        exact (Option.some.inj hb3).symm
      subst hb2
      have hl2 : l ∈ [(⟨5, 10, 1⟩ : Book.Level)] := hl
      rw [List.mem_singleton] at hl2
      subst hl2
      decide)

/-! ## The positional queries -/

theorem vectorAt_of_nonneg (v : List Book.Level) (i : Int) (h0 : 0 ≤ i) (h1 : i < 2 ^ 31) :
    vectorAt v i = v[i.toNat]? := by
  unfold vectorAt
  rw [Int.emod_eq_of_lt h0 (by omega)]

/-- C17. Positional queries and their boundary (`levelIndex` is an `int`, so below
`2^31`): when the symbol has a book and `0 <= levelIndex < ` the number of levels of the
side, `priceOfSideLevel` and `qtyOfSideLevel` return the price and the quantity of the
level at that position; when `levelIndex` is the number of levels or more, or the symbol
has no book, both return the failure value 0. The queries are functions of the state
and return no state: they write to nothing. -/
theorem OrderBookMgr.positional_queries (hash : String → Int) (m : OrderBookMgr) (side : Char)
    (levelIndex : Int) (symbol : String) (hint : levelIndex < 2 ^ 31) :
    (∀ b, m.getBook (hash symbol) = some b →
      (∀ l, 0 ≤ levelIndex → (b.side (decide (side = 'B')))[levelIndex.toNat]? = some l →
        m.priceOfSideLevel hash side levelIndex symbol = some l.price ∧
        m.qtyOfSideLevel hash side levelIndex symbol = some l.quantity) ∧
      (((b.side (decide (side = 'B'))).length : Int) ≤ levelIndex →
        m.priceOfSideLevel hash side levelIndex symbol = some 0 ∧
        m.qtyOfSideLevel hash side levelIndex symbol = some 0)) ∧
    (m.getBook (hash symbol) = none →
      m.priceOfSideLevel hash side levelIndex symbol = some 0 ∧
      m.qtyOfSideLevel hash side levelIndex symbol = some 0) := by
  constructor
  · intro b hb
    have hb2 : m.books.lookup (hash symbol) = some b := hb
    have hbx : m.bookExist (hash symbol) = true := by
      simp [OrderBookMgr.bookExist, hb2]
    constructor
    · intro l h0 hl
      have hlt : levelIndex.toNat < (b.side (decide (side = 'B'))).length :=
        (List.getElem?_eq_some.mp hl).1
      have hlt2 : levelIndex < ((b.side (decide (side = 'B'))).length : Int) := by omega
      by_cases hside : side = 'B'
      · simp only [hside, decide_True, Book.side, if_true] at hl hlt2
        simp only [OrderBookMgr.priceOfSideLevel, OrderBookMgr.qtyOfSideLevel, hbx, hb2, hside,
          if_true, Book.bidsSize, hlt2, vectorAt_of_nonneg _ _ h0 hint, hl, Option.map_some',
          and_self]
      · simp only [hside, decide_False, Book.side, Bool.false_eq_true, if_false] at hl hlt2
        simp only [OrderBookMgr.priceOfSideLevel, OrderBookMgr.qtyOfSideLevel, hbx, hb2, hside,
          if_true, if_false, Book.offersSize, hlt2, vectorAt_of_nonneg _ _ h0 hint, hl,
          Option.map_some', and_self]
    · intro hge
      by_cases hside : side = 'B'
      · simp only [hside, decide_True, Book.side, if_true] at hge
        have hn : ¬ levelIndex < (b.bids.length : Int) := by omega
        simp only [OrderBookMgr.priceOfSideLevel, OrderBookMgr.qtyOfSideLevel, hbx, hb2, hside,
          if_true, Book.bidsSize, hn, if_false, and_self]
      · simp only [hside, decide_False, Book.side, Bool.false_eq_true, if_false] at hge
        have hn : ¬ levelIndex < (b.offers.length : Int) := by omega
        simp only [OrderBookMgr.priceOfSideLevel, OrderBookMgr.qtyOfSideLevel, hbx, hb2, hside,
          if_true, Book.offersSize, hn, if_false, and_self]
  · intro hb
    have hb2 : m.books.lookup (hash symbol) = none := hb
    have hbx : m.bookExist (hash symbol) = false := by
      simp [OrderBookMgr.bookExist, hb2]
    simp only [OrderBookMgr.priceOfSideLevel, OrderBookMgr.qtyOfSideLevel, hbx,
      Bool.false_eq_true, if_false, and_self]

/-- C17 on the test's book: with five bids from 86.5 down to 86.1, position 2 of the
bids gives the price 86.3 and position 6 gives the failure value 0. -/
theorem OrderBookMgr.positional_queries_witness :
    OrderBookMgr.priceOfSideLevel (fun s => s.length)
        ⟨[], [(7, ⟨7, [⟨86.5, 10000, 1⟩, ⟨86.4, 10000, 1⟩, ⟨86.3, 10000, 1⟩,
          ⟨86.2, 10000, 1⟩, ⟨86.1, 10000, 1⟩], []⟩)]⟩ 'B' 2 "test.hk" = some 86.3 ∧
    OrderBookMgr.priceOfSideLevel (fun s => s.length)
        ⟨[], [(7, ⟨7, [⟨86.5, 10000, 1⟩, ⟨86.4, 10000, 1⟩, ⟨86.3, 10000, 1⟩,
          ⟨86.2, 10000, 1⟩, ⟨86.1, 10000, 1⟩], []⟩)]⟩ 'B' 6 "test.hk" = some 0 :=
  ⟨(((OrderBookMgr.positional_queries (fun s => s.length)
        ⟨[], [(7, ⟨7, [⟨86.5, 10000, 1⟩, ⟨86.4, 10000, 1⟩, ⟨86.3, 10000, 1⟩,
          ⟨86.2, 10000, 1⟩, ⟨86.1, 10000, 1⟩], []⟩)]⟩ 'B' 2 "test.hk" (by norm_num)).1
        ⟨7, [⟨86.5, 10000, 1⟩, ⟨86.4, 10000, 1⟩, ⟨86.3, 10000, 1⟩,
          ⟨86.2, 10000, 1⟩, ⟨86.1, 10000, 1⟩], []⟩ rfl).1
        ⟨86.3, 10000, 1⟩ (by norm_num) rfl).1,
   (((OrderBookMgr.positional_queries (fun s => s.length)
        ⟨[], [(7, ⟨7, [⟨86.5, 10000, 1⟩, ⟨86.4, 10000, 1⟩, ⟨86.3, 10000, 1⟩,
          ⟨86.2, 10000, 1⟩, ⟨86.1, 10000, 1⟩], []⟩)]⟩ 'B' 6 "test.hk" (by norm_num)).1
        ⟨7, [⟨86.5, 10000, 1⟩, ⟨86.4, 10000, 1⟩, ⟨86.3, 10000, 1⟩,
          ⟨86.2, 10000, 1⟩, ⟨86.1, 10000, 1⟩], []⟩ rfl).2 (by decide)).1⟩

/-- C20. The code at a failing input: with one bid level in the book of "X", the index -1
passes the guard `levelIndex < bidsSize()` (-1 < 1) and the queries index the vector
outside its positions, instead of reporting the index as out of range (the value 0). -/
theorem OrderBookMgr.negative_index_passes_guard :
    decide ((-1 : Int) < Book.bidsSize ⟨1, [⟨5, 10, 1⟩], []⟩) = true ∧
    vectorAt [⟨5, 10, 1⟩] (-1) = none ∧
    OrderBookMgr.priceOfSideLevel (fun s => s.length)
      ⟨[(1, ⟨1, 'B', 5, 10, "X"⟩)], [(1, ⟨1, [⟨5, 10, 1⟩], []⟩)]⟩ 'B' (-1) "X" = none ∧
    OrderBookMgr.qtyOfSideLevel (fun s => s.length)
      ⟨[(1, ⟨1, 'B', 5, 10, "X"⟩)], [(1, ⟨1, [⟨5, 10, 1⟩], []⟩)]⟩ 'B' (-1) "X" = none := by
  decide

/-- C19. The code at a failing input: after adding order 1 (bid, price 5, quantity 10) and
`replace(1, 0)`, order 1 is still tracked, its level is `{5, 0, 1}`, and `remove(1)`
returns failure and changes nothing: `levelQty` is 0, so `Book::remove` reports "no
level on price". -/
theorem OrderBookMgr.tracked_order_not_removable :
    OrderBookMgr.run (fun s => s.length) OrderBookMgr.empty
        [.add ⟨1, 'B', 5, 10, "X"⟩, .replace 1 0] =
      some ⟨[(1, ⟨1, 'B', 5, 10, "X"⟩)], [(1, ⟨1, [⟨5, 0, 1⟩], []⟩)]⟩ ∧
    OrderBookMgr.orderExist
      ⟨[(1, ⟨1, 'B', 5, 10, "X"⟩)], [(1, ⟨1, [⟨5, 0, 1⟩], []⟩)]⟩ 1 = true ∧
    OrderBookMgr.remove (fun s => s.length)
        ⟨[(1, ⟨1, 'B', 5, 10, "X"⟩)], [(1, ⟨1, [⟨5, 0, 1⟩], []⟩)]⟩ 1 =
      some (false, ⟨[(1, ⟨1, 'B', 5, 10, "X"⟩)], [(1, ⟨1, [⟨5, 0, 1⟩], []⟩)]⟩) := by
  decide

/-! ## One record per order id -/

theorem OrderBookMgr.orders_nodup_step (hash : String → Int) (m : OrderBookMgr) (op : MgrOp)
    (r : Bool × OrderBookMgr) (hn : (m.orders.map Prod.fst).Nodup)
    (h : m.step hash op = some r) : (r.2.orders.map Prod.fst).Nodup := by
  cases op with
  | add order =>
    simp only [OrderBookMgr.step, Option.some.injEq] at h
    subst h
    by_cases hex : m.orderExist order.id = true
    · simp only [OrderBookMgr.add, hex, Bool.not_true, Bool.false_eq_true, if_false]
      exact hn
    · have hnew : m.orderExist order.id = false := by simpa using hex
      by_cases hpq : order.price > 0 ∧ order.quantity > 0
      · rw [OrderBookMgr.add_accepted hash m order hnew hpq.1 hpq.2]
        simp only [List.map_cons, List.nodup_cons]
        refine ⟨not_mem_keys_of_lookup_none ?_, hn⟩
        simpa [OrderBookMgr.orderExist] using hnew
      · rw [OrderBookMgr.add_rejected hash m order hpq]
        exact hn
  | remove orderId =>
    rw [OrderBookMgr.remove_orders hash m orderId r h]
    split_ifs
    · exact List.Nodup.sublist (keys_eraseOrder_sublist _ _) hn
    · exact hn
  | replace orderId quantity =>
    rw [OrderBookMgr.replace_orders hash m orderId quantity r h]
    exact hn

theorem OrderBookMgr.orders_nodup_run (hash : String → Int) (ops : List MgrOp) :
    ∀ m m2 : OrderBookMgr, (m.orders.map Prod.fst).Nodup →
      OrderBookMgr.run hash m ops = some m2 → (m2.orders.map Prod.fst).Nodup := by
  induction ops with
  | nil =>
    intro m m2 hn h
    simp only [OrderBookMgr.run, Option.some.injEq] at h
    subst h
    exact hn
  | cons op ops ih =>
    intro m m2 hn h
    simp only [OrderBookMgr.run] at h
    cases hstep : m.step hash op with
    | none =>
      rw [hstep] at h
      cases h
    | some r =>
      rw [hstep] at h
      exact ih r.2 m2 (OrderBookMgr.orders_nodup_step hash m op r hn hstep) h

/-- In every reachable state the `orders` map has one entry per order id. -/
theorem OrderBookMgr.orders_nodup_of_reachable (hash : String → Int) (m : OrderBookMgr)
    (h : m.Reachable hash) : (m.orders.map Prod.fst).Nodup := by
  obtain ⟨ops, hops⟩ := h
  exact OrderBookMgr.orders_nodup_run hash ops OrderBookMgr.empty m List.nodup_nil hops

/-! ## `Book::add` on a `double` price -/

theorem Book.add_isBid_double_num (isBid : Bool) (b : Book) (p : ℚ) (quantity : Int) :
    b.add_isBid_double isBid (.num p) quantity = b.add_isBid isBid p quantity := by
  unfold Book.add_isBid_double
  by_cases h : p > 0 ∧ quantity > 0
  · have hg : Double.gt (.num p) (.num 0) = true ∧ quantity > 0 := by
      simpa [Double.gt] using h
    rw [if_pos hg]
  · have hg : ¬ (Double.gt (.num p) (.num 0) = true ∧ quantity > 0) := by
      simpa [Double.gt] using h
    rw [if_neg hg, Book.add_isBid_of_not isBid b p quantity h]

theorem Book.add_isBid_double_nan (isBid : Bool) (b : Book) (quantity : Int) :
    b.add_isBid_double isBid .nan quantity = (false, b) := by
  simp [Book.add_isBid_double, Double.gt]

theorem Book.add_double_num (b : Book) (side : Char) (p : ℚ) (quantity : Int) :
    b.add_double side (.num p) quantity = b.add side p quantity := by
  unfold Book.add_double Book.add
  split_ifs <;> exact Book.add_isBid_double_num _ b p quantity

theorem Book.add_double_nan (b : Book) (side : Char) (quantity : Int) :
    b.add_double side .nan quantity = (false, b) := by
  unfold Book.add_double
  split_ifs <;> exact Book.add_isBid_double_nan _ b quantity

/-- C7, the claim as stated fails: with the price NaN and the quantity 1, `add` returns
failure although neither `price <= 0` nor `quantity <= 0` holds. -/
theorem Book.add_nan_refused :
    ((Book.new 0).add_double 'B' Double.nan 1).1 = false ∧
    Double.le Double.nan (Double.num 0) = false ∧
    decide ((1 : Int) ≤ 0) = false := by
  decide

/-- C7, amended. `Book::add` validates its terms atomically: it returns failure exactly
when the price is NaN, `price <= 0` or `quantity <= 0` (that is, unless `price > 0` and
`quantity > 0`), and a failing call leaves both the bids and the offers as they were. -/
theorem Book.add_double_validates (b : Book) (side : Char) (price : Double) (quantity : Int) :
    ((b.add_double side price quantity).1 = false ↔
      (price = Double.nan ∨ Double.le price (Double.num 0) = true ∨ quantity ≤ 0)) ∧
    ((b.add_double side price quantity).1 = false ↔
      ¬ (Double.gt price (Double.num 0) = true ∧ quantity > 0)) ∧
    ((b.add_double side price quantity).1 = false →
      (b.add_double side price quantity).2.bids = b.bids ∧
      (b.add_double side price quantity).2.offers = b.offers) := by
  cases price with
  | nan =>
    rw [Book.add_double_nan]
    simp [Double.gt]
  | num p =>
    rw [Book.add_double_num]
    obtain ⟨h1, h2⟩ := Book.add_validates b side p quantity
    refine ⟨?_, ?_, h2⟩
    · rw [h1]
      simp [Double.le]
    · rw [h1]
      simp only [Double.gt, decide_eq_true_eq, not_and_or, not_lt, gt_iff_lt]

/-- C7, amended, at concrete inputs: on a book with one bid, a bid at the price NaN and an
offer at the price 0 are both refused and the book keeps its levels. -/
theorem Book.add_double_validates_witness :
    ((⟨7, [⟨5, 10, 1⟩], []⟩ : Book).add_double 'B' Double.nan 10).1 = false ∧
    (((⟨7, [⟨5, 10, 1⟩], []⟩ : Book).add_double 'S' (Double.num 0) 10).1 = false ∧
      ((⟨7, [⟨5, 10, 1⟩], []⟩ : Book).add_double 'S' (Double.num 0) 10).2.bids =
        [⟨5, 10, 1⟩]) :=
  ⟨((Book.add_double_validates ⟨7, [⟨5, 10, 1⟩], []⟩ 'B' Double.nan 10).1).mpr (Or.inl rfl),
   ((Book.add_double_validates ⟨7, [⟨5, 10, 1⟩], []⟩ 'S' (Double.num 0) 10).1).mpr
      (Or.inr (Or.inl (by decide))),
   ((Book.add_double_validates ⟨7, [⟨5, 10, 1⟩], []⟩ 'S' (Double.num 0) 10).2.2
      (((Book.add_double_validates ⟨7, [⟨5, 10, 1⟩], []⟩ 'S' (Double.num 0) 10).1).mpr
        (Or.inr (Or.inl (by decide))))).1⟩

/-! ## `Book::remove` on 32-bit integers -/

theorem wrap32_of_range (x : Int) (h1 : -2 ^ 31 ≤ x) (h2 : x < 2 ^ 31) : wrap32 x = x := by
  unfold wrap32
  rw [Int.emod_eq_of_lt (by omega) (by omega)]
  omega

theorem Book.remove_i32_eq (b : Book) (side : Char) (price : ℚ) (quantity : Int) :
    b.remove_i32 side price quantity = b.remove_isBid_i32 (decide (side = 'B')) price quantity := by
  unfold Book.remove_i32
  split_ifs with h <;> simp [h]

/-- What `remove<isBid>` does on a sorted side with the arithmetic of `int`. -/
theorem Book.remove_isBid_i32_cases (isBid : Bool) (b : Book) (price : ℚ) (quantity : Int)
    (hs : Book.SortedSide isBid (b.side isBid)) :
    ∃ pre suf, b.side isBid = pre ++ suf ∧
      (∀ a ∈ pre, Book.better isBid a.price price) ∧
      ((∃ s tl, suf = s :: tl ∧ s.price = price ∧ (∀ a ∈ tl, Book.better isBid price a.price) ∧
          b.remove_isBid_i32 isBid price quantity =
            if s.quantity ≠ 0 then
              if s.count = 1 then (true, b.setSide isBid (pre ++ tl))
              else (true, b.setSide isBid
                (pre ++ { s with quantity := wrap32 (s.quantity - quantity),
                                 count := wrap32 (s.count - 1) } :: tl))
            else (false, b)) ∨
        ((∀ a ∈ suf, Book.better isBid price a.price) ∧
          b.remove_isBid_i32 isBid price quantity = (false, b))) := by
  obtain ⟨pre, suf, hsplit, hk, hpre, hcase⟩ := Book.levelQty_cases isBid b price hs
  refine ⟨pre, suf, hsplit, hpre, ?_⟩
  have hrem : b.remove_isBid_i32 isBid price quantity =
      if b.levelQty isBid price ≠ 0 then
        match (b.side isBid)[lower_bound (b.side isBid) price (Book.lt isBid)]? with
        | some l =>
          if l.count = 1 then
            (true, b.setSide isBid ((b.side isBid).eraseIdx
              (lower_bound (b.side isBid) price (Book.lt isBid))))
          else
            (true, b.setSide isBid ((b.side isBid).set
              (lower_bound (b.side isBid) price (Book.lt isBid))
              { l with quantity := wrap32 (l.quantity - quantity),
                       count := wrap32 (l.count - 1) }))
        | none => (true, b)
      else (false, b) := rfl
  rw [hk, hsplit, getElem?_length_append] at hrem
  rcases hcase with ⟨s, tl, rfl, hsp, htl, hlq⟩ | ⟨hall, hlq⟩
  · left
    refine ⟨s, tl, rfl, hsp, htl, ?_⟩
    rw [hrem, hlq]
    simp [set_length_append, eraseIdx_length_append]
  · right
    refine ⟨hall, ?_⟩
    rw [hrem, hlq]
    simp

/-- C10, the claim as stated fails: on the sorted bids `[{5, -2147483648, 2}]` the call
`remove('B', 5, 1)` returns success on a level of count 2 and leaves the level with the
quantity 2147483647, which is not the old quantity minus 1: that difference is outside
the range of `int`. -/
theorem Book.remove_i32_overflow :
    Book.SortedSide true [⟨5, -2147483648, 2⟩] ∧
    (⟨0, [⟨5, -2147483648, 2⟩], []⟩ : Book).remove_i32 'B' 5 1 =
      (true, ⟨0, [⟨5, 2147483647, 1⟩], []⟩) ∧
    (2147483647 : Int) ≠ -2147483648 - 1 := by
  decide

/-- C10, amended. Effect of a successful `Book::remove`: on a sorted side, a call that
returns success found the level at `price`, which splits the side; if that level had
count 1 it is gone (no level at `price` is left and the side is one shorter, whatever
`quantity` was); if it had a count above 1 (an `int`, so below `2^31`) and its quantity
minus `quantity` is in the range of `int`, it stays in place with `quantity` subtracted
(also into zero or below) and its count one less; every other level and the other side
are unchanged. -/
theorem Book.remove_i32_effect (b : Book) (side : Char) (price : ℚ) (quantity : Int)
    (hs : Book.SortedSide (decide (side = 'B')) (b.side (decide (side = 'B'))))
    (hok : (b.remove_i32 side price quantity).1 = true) :
    (∃ pre s tl, b.side (decide (side = 'B')) = pre ++ s :: tl ∧ s.price = price ∧
      (s.count = 1 →
        (b.remove_i32 side price quantity).2.side (decide (side = 'B')) = pre ++ tl ∧
        (∀ a ∈ (b.remove_i32 side price quantity).2.side (decide (side = 'B')),
          a.price ≠ price) ∧
        ((b.remove_i32 side price quantity).2.side (decide (side = 'B'))).length + 1 =
          (b.side (decide (side = 'B'))).length) ∧
      (1 < s.count → s.count < 2 ^ 31 →
        -2 ^ 31 ≤ s.quantity - quantity → s.quantity - quantity < 2 ^ 31 →
        (b.remove_i32 side price quantity).2.side (decide (side = 'B')) =
          pre ++ { price := s.price, quantity := s.quantity - quantity,
                   count := s.count - 1 } :: tl) ∧
      (s.count ≠ 1 →
        ∃ x, (b.remove_i32 side price quantity).2.side (decide (side = 'B')) =
          pre ++ x :: tl ∧ x.price = s.price)) ∧
    (b.remove_i32 side price quantity).2.side (!decide (side = 'B')) =
      b.side (!decide (side = 'B')) := by
  rw [Book.remove_i32_eq] at hok ⊢
  generalize decide (side = 'B') = isBid at *
  obtain ⟨pre, suf, hsplit, hpre, hcase⟩ :=
    Book.remove_isBid_i32_cases isBid b price quantity hs
  rcases hcase with ⟨s, tl, rfl, hsp, htl, hres⟩ | ⟨hall, hres⟩
  · rw [hres] at hok ⊢
    by_cases hq0 : s.quantity ≠ 0
    · rw [if_pos hq0] at hok ⊢
      refine ⟨⟨pre, s, tl, hsplit, hsp, ?_, ?_, ?_⟩, ?_⟩
      · intro hc
        simp only [hc, if_true, Book.side_setSide, true_and]
        refine ⟨?_, by rw [hsplit]; simp; omega⟩
        intro a ha
        rcases List.mem_append.mp ha with hm | hm
        · exact Book.better_ne (hpre a hm)
        · exact (Book.better_ne (htl a hm)).symm
      · intro hc hc2 hq1 hq2
        have hne : s.count ≠ 1 := by omega
        simp only [hne, if_false, Book.side_setSide]
        rw [wrap32_of_range _ hq1 hq2, wrap32_of_range (s.count - 1) (by omega) (by omega)]
      · intro hne
        simp only [hne, if_false, Book.side_setSide]
        exact ⟨_, rfl, rfl⟩
      · split_ifs <;> simp
    · rw [if_neg hq0] at hok
      cases hok
  · rw [hres] at hok
    cases hok

/-- C10, amended, on a small book: removing 10 from the bid level `{5, 10, 2}` succeeds and
leaves the level `{5, 0, 1}`, a level of quantity zero, and the offers stay. -/
theorem Book.remove_i32_effect_witness :
    ((⟨0, [⟨5, 10, 2⟩], [⟨7, 4, 1⟩]⟩ : Book).remove_i32 'B' 5 10).1 = true ∧
    ((⟨0, [⟨5, 10, 2⟩], [⟨7, 4, 1⟩]⟩ : Book).remove_i32 'B' 5 10).2.bids = [⟨5, 0, 1⟩] ∧
    ((⟨0, [⟨5, 10, 2⟩], [⟨7, 4, 1⟩]⟩ : Book).remove_i32 'B' 5 10).2.side
        (!decide ('B' = 'B')) =
      (⟨0, [⟨5, 10, 2⟩], [⟨7, 4, 1⟩]⟩ : Book).side (!decide ('B' = 'B')) :=
  ⟨by decide, by decide,
    (Book.remove_i32_effect ⟨0, [⟨5, 10, 2⟩], [⟨7, 4, 1⟩]⟩ 'B' 5 10 (by decide)
      (by decide)).2⟩

end ob
